import Mathlib

/-!
Verification of `fix_m1_rgb.py` (sudowork/fix_m1_rgb).

The script's mutation engine operates on an `xml.etree.ElementTree` tree
decoded from a plist.  We embed XML elements shallowly: a Python
`Element` is a heap object with a tag, a mutable `text` field and an
ordered list of children.  Object identity is modelled by a numeric
`id` field; in-place mutation of a `text` attribute becomes the
functional update `setText` directed at that id (distinct Python
objects have distinct ids, which the theorems assume as `Nodup` of the
id listing where identity matters).
-/

/-- An `xml.etree.ElementTree.Element`: tag, mutable text, ordered children.
The `id` component stands for the Python object identity. -/
inductive Elem : Type where
  | node (eid : Nat) (tag : String) (text : Option String) (children : List Elem)

/-- Object identity of the element. -/
def Elem.eid : Elem → Nat
  | .node i _ _ _ => i

/-- The XML tag of the element (`elem.tag`). -/
def Elem.tag : Elem → String
  | .node _ t _ _ => t

/-- The text of the element (`elem.text`; `none` models Python `None`). -/
def Elem.text : Elem → Option String
  | .node _ _ tx _ => tx

/-- The ordered list of direct children of the element. -/
def Elem.children : Elem → List Elem
  | .node _ _ _ cs => cs

mutual
/-- `elem.iter()`: the element followed by all descendants in document
(preorder) order, exactly as Python's `Element.iter` yields them. -/
def Elem.iter : Elem → List Elem
  | .node i t tx cs => .node i t tx cs :: iterList cs

/-- `iter` flattened over a list of sibling elements, in order. -/
def iterList : List Elem → List Elem
  | [] => []
  | e :: es => e.iter ++ iterList es
end

mutual
/-- In-place mutation `obj.text = v` of the (unique) element whose identity
is `j`, rendered as a functional update of the whole tree. -/
def setText : Elem → Nat → String → Elem
  | .node i t tx cs, j, v =>
      .node i t (if i = j then some v else tx) (setTextList cs j v)

/-- `setText` mapped over a list of sibling elements. -/
def setTextList : List Elem → Nat → String → List Elem
  | [], _, _ => []
  | e :: es, j, v => setText e j v :: setTextList es j v
end

/-! ## The key/value lookup (`get_dict_value`, lines 177-186) -/

/-- The value the loop variable `prev_key` takes after handling `e`:
`elem.text` when `elem.tag == "key"`, else `None`. -/
def keyOf (e : Elem) : Option String :=
  if e.tag = "key" then e.text else none

/-- The scanning loop of `get_dict_value`: walk the flattened `iter()`
listing, returning the element that immediately follows a `key` element
whose text equals `key`. -/
def gdvAux (key : String) : Option String → List Elem → Option Elem
  | _, [] => none
  | prev, e :: rest =>
      if prev = some key then some e else gdvAux key (keyOf e) rest

/-- `get_dict_value(plist_dict, key)`: scan `plist_dict.iter()` (the whole
subtree in preorder), threading `prev_key`, and return the element right
after the first `key`-tagged element with matching text. -/
def get_dict_value (d : Elem) (key : String) : Option Elem :=
  gdvAux key none d.iter

/-! ## Enumerating the configs (`fix_display_prefs`, lines 130-144) -/

/-- The bracket predicate of `.//dict[key="LinkDescription"]`: some direct
child is a `key` element whose complete text is `k`. -/
def hasDirectKey (e : Elem) (k : String) : Bool :=
  e.children.any (fun c => c.tag == "key" && c.text == some k)

/-- All proper descendants of the root, in document order (the nodes
`.//…` ranges over; ElementTree excludes the root itself). -/
def descendants (root : Elem) : List Elem :=
  iterList root.children

/-- `xml.findall('.//dict[key="LinkDescription"]')`: every descendant
`dict` with a direct `LinkDescription` key, in document order. -/
def findall_linkdesc (root : Elem) : List Elem :=
  (descendants root).filter (fun e => e.tag == "dict" && hasDirectKey e "LinkDescription")

/-- The identities of the captured config elements (the Python list holds
live references; we re-locate them by identity under mutation). -/
def configIds (root : Elem) : List Nat :=
  (findall_linkdesc root).map Elem.eid

/-- Re-dereference a live Python object reference inside the current tree
state: the (unique, by identity) element with the given id. -/
def findById (root : Elem) (i : Nat) : Option Elem :=
  root.iter.find? (fun e => e.eid == i)

/-! ## `fix_config` (lines 162-174)

`none` models an uncaught `AssertionError`.  The `assert
link_description_dict and …` uses Python truthiness of an `Element`,
which is `len(children) != 0`. -/

/-- `fix_config(config)`, with the shared tree state passed explicitly:
returns the flag the function returns and the tree after any in-place
`text` mutations; `none` is an `AssertionError`. -/
def fix_config (root : Elem) (config : Elem) : Option (Bool × Elem) := do
  let ld ← get_dict_value config "LinkDescription"
  if ld.children.isEmpty || ld.tag != "dict" then none
  else do
    let pe ← get_dict_value ld "PixelEncoding"
    let rg ← get_dict_value ld "Range"
    if pe.text != some "1" || rg.text != some "0" then some (false, root)
    else some (true, setText (setText root pe.eid "0") rg.eid "1")

/-- One iteration of the `for config in configs_to_fix` loop of
`fix_display_prefs`: skip (uncounted) when `UUID` is absent, otherwise
run `fix_config` and count a `True` result. -/
def fixStep (root : Elem) (cfgId : Nat) : Option (Elem × Nat) := do
  let config ← findById root cfgId
  match get_dict_value config "UUID" with
  | none => some (root, 0)
  | some _ => do
      let fr ← fix_config root config
      some (fr.2, if fr.1 then 1 else 0)

/-- The whole `for config in configs_to_fix` loop: thread the tree state
through every config, accumulating `num_fixed`; `none` aborts the pass
(an uncaught exception). -/
def fixLoop : Elem → List Nat → Option (Elem × Nat)
  | root, [] => some (root, 0)
  | root, i :: is => do
      let rc ← fixStep root i
      let rest ← fixLoop rc.1 is
      some (rest.1, rc.2 + rest.2)

/-! ## The JSON mapping view (`has_any_link_description`, lines 152-159)

`plutil -convert json` + `json.loads` yields plain Python values; the
code indexes them dynamically, so the model keeps Python's dynamic
behaviour: `none` is an uncaught exception (`TypeError`, `KeyError`,
`AttributeError`). -/

/-- A Python value decoded from JSON: dict, list, string or number. -/
inductive JVal : Type where
  | obj (fields : List (String × JVal))
  | arrJ (vs : List JVal)
  | strJ (s : String)
  | intJ (n : Int)

/-- Python truthiness of a JSON-decoded value. -/
def jTruthy : JVal → Bool
  | .obj fs => !fs.isEmpty
  | .arrJ vs => !vs.isEmpty
  | .strJ s => !(s = "")
  | .intJ n => !(n = 0)

/-- `x.get(k, dflt)`: dict lookup with default (later duplicate keys win,
as in a dict built by `json.loads`); `.get` on a non-dict raises. -/
def jGetDefault (x : JVal) (k : String) (dflt : JVal) : Option JVal :=
  match x with
  | .obj fs => some ((fs.foldl (fun acc p => if p.1 = k then some p.2 else acc) none).getD dflt)
  | _ => none

/-- Iterating a Python value with `for`: a list yields elements, a dict
its keys, a string its characters; a number raises `TypeError`. -/
def jIterList : JVal → Option (List JVal)
  | .arrJ vs => some vs
  | .obj fs => some (fs.map (fun p => .strJ p.1))
  | .strJ s => some (s.toList.map (fun c => .strJ ⟨[c]⟩))
  | .intJ _ => none

/-- `config[0]`: first list element, first character of a string; raises
on an empty list, a dict (`KeyError` for key `0`) or a number. -/
def jIndex0 : JVal → Option JVal
  | .arrJ (v :: _) => some v
  | .arrJ [] => none
  | .strJ s => (s.toList.head?).map (fun c => .strJ ⟨[c]⟩)
  | .obj _ => none
  | .intJ _ => none

/-- Python `s in x`: key membership for a dict, element membership for a
list, substring for a string; raises for a number. -/
def jContains (x : JVal) (s : String) : Option Bool :=
  match x with
  | .obj fs => some (fs.any (fun p => p.1 == s))
  | .arrJ vs => some (vs.any (fun v => match v with | .strJ t => t == s | _ => false))
  | .strJ t => some (decide (s.toList <:+: t.toList))
  | .intJ _ => none

/-- The `for config in configs` loop of `has_any_link_description`, with
the short-circuit `config and config[0] and "LinkDescription" in config[0]`. -/
def hasAnyLoop : List JVal → Option Bool
  | [] => some false
  | c :: rest =>
      if jTruthy c then do
        let c0 ← jIndex0 c
        if jTruthy c0 then do
          let b ← jContains c0 "LinkDescription"
          if b then some true else hasAnyLoop rest
        else hasAnyLoop rest
      else hasAnyLoop rest

/-- `has_any_link_description(data)`: scan
`data.get("DisplayAnyUserSets", {}).get("Configs", [])` for an entry
whose first element contains a `LinkDescription` field. -/
def has_any_link_description (data : JVal) : Option Bool := do
  let dau ← jGetDefault data "DisplayAnyUserSets" (.obj [])
  let configs ← jGetDefault dau "Configs" (.arrJ [])
  let items ← jIterList configs
  hasAnyLoop items

/-! ## The per-document flow (`fix_display_prefs`, lines 113-149) -/

/-- What one `fix_display_prefs` call does with a decoded document:
return early without writing (`skipped`), or walk, fix and write the
resulting tree with its count. -/
inductive Outcome : Type where
  | skipped
  | wrote (root : Elem) (numFixed : Nat)

/-- The body of `fix_display_prefs` after a successful decode: fast-reject
on the JSON view, otherwise run the structural loop and write the result;
`none` is an uncaught exception escaping the function. -/
def fixDocument (root : Elem) (jsonData : JVal) : Option Outcome := do
  let b ← has_any_link_description jsonData
  if !b then some .skipped
  else do
    let rn ← fixLoop root (configIds root)
    some (.wrote rn.1 rn.2)

/-- One candidate path in `main`'s loop.  The decode of the file's bytes
(`plutil` + `ET.fromstring` / `json.loads`) is an external collaborator;
its outcome is the parameter: `none` means the decode raised.  On a
decode failure the `except` branch only logs — control falls through to
`has_any_link_description(json_data)` with `json_data` unbound, raising
an uncaught `NameError`, modelled as `none`. -/
def processPath : Option (Elem × JVal) → Option Outcome
  | none => none
  | some (x, j) => fixDocument x j

/-- `main`'s `for path in found_paths` loop: an exception anywhere aborts
the whole run (`none`), losing the remaining candidates. -/
def mainLoop : List (Option (Elem × JVal)) → Option (List Outcome)
  | [] => some []
  | d :: rest => do
      let o ← processPath d
      let os ← mainLoop rest
      some (o :: os)

/-! ## The content pager (`display`, lines 344-399) -/

/-- The movement keys `display` reacts to; `other` covers everything
else (including the initial `None`). -/
inductive DKey : Type where
  | up | down | left | right | ctrlU | ctrlD | ctrlB | ctrlF | other
deriving DecidableEq

/-- `move_amount`: `win_height // 2` (Python floor division) for the four
control keys, otherwise `1`. -/
def moveAmount (winH : Int) : DKey → Int
  | .ctrlU | .ctrlD | .ctrlB | .ctrlF => Int.fdiv winH 2
  | _ => 1

/-- One iteration of `display`'s movement handling on the viewport origin
`(pad_top, pad_left)`: up/left clamp at `0` via `max`, down/right clamp
at `content − viewport` via `min` (with no lower clamp). -/
def displayStep (height width winH winW : Int) (st : Int × Int) (k : DKey) : Int × Int :=
  let m := moveAmount winH k
  match k with
  | .up | .ctrlU | .ctrlB => (max 0 (st.1 - m), st.2)
  | .down | .ctrlD | .ctrlF => (min (height - winH) (st.1 + m), st.2)
  | .left => (st.1, max 0 (st.2 - m))
  | .right => (st.1, min (width - winW) (st.2 + m))
  | .other => st

/-! ## The path-list screen (`revert`, lines 241-276) -/

/-- Python list subscription `l[i]`, including negative indices;
`none` is an `IndexError`. -/
def pyIndex {α : Type} (l : List α) (i : Int) : Option α :=
  if 0 ≤ i then l.get? i.toNat
  else if 0 ≤ (l.length : Int) + i then l.get? (((l.length : Int) + i).toNat)
  else none

/-- The keys the `revert` screen reacts to; `start` is the initial
`key = None` iteration, `other` any unhandled key. -/
inductive RKey : Type where
  | up | down | enter | start | other
deriving DecidableEq

/-- One iteration of `revert`'s while-body: clamp the selection on
up/down, then evaluate `paths[selection]` unconditionally (crashing with
`IndexError` when out of range), and on Enter re-query the backup
locations (`requery` is what `get_backup_locations()` returns then)
without re-clamping the selection. -/
def revertStep (locs : List (String × List String)) (sel : Int) (key : RKey)
    (requery : List (String × List String)) :
    Option (Int × List (String × List String) × String) :=
  let sel1 := if key = RKey.up then max (sel - 1) 0 else sel
  let sel2 := if key = RKey.down then min (sel1 + 1) ((locs.length : Int) - 1) else sel1
  match pyIndex (locs.map Prod.fst) sel2 with
  | none => none
  | some selected =>
      if key = RKey.enter then some (sel2, requery, selected)
      else some (sel2, locs, selected)

/-! ## The backup store (`get_backups` / `get_backup_locations`,
lines 279-296) -/

/-- The literal list `get_backups` returns from its first, hard-coded
`return` statement (marked `# TODO: REMOVE ME` in the source). -/
def hardcodedBackup : String :=
  "/Users/kgao/Library/Preferences/ByHost/com.apple.windowserver.13369FFC-A6CC-5162-B380-00A9E5A7BDEA.plist.bak.1623016550"

/-- `get_backups(path)`: `globMatches` models the on-disk
`directory.glob(f"{filename}.bak.*")` listing that the final line would
return, but the early hard-coded `return` makes that line dead code, so
the result ignores both arguments. -/
def get_backups (globMatches : List String) (path : String) : List String :=
  let _ := globMatches
  let _ := path
  [hardcodedBackup]

/-- `get_backup_locations()`: pair every candidate path with its
`get_backups` listing and drop the paths whose listing is empty. -/
def get_backup_locations (possiblePaths : List String) (globOf : String → List String) :
    List (String × List String) :=
  (possiblePaths.map (fun p => (p, get_backups (globOf p) p))).filter
    (fun x => !x.2.isEmpty)

/-! ## The spec-side positional lookup (for the refinement claim)

Modelled from the spec's words, *not* from the source: "the value
immediately following a key node … among that Dict's own alternating
children", to be compared against `get_dict_value`. -/

/-- Positional pairing over a `Dict`'s own children only. -/
def specPairGo (k : String) : List Elem → Option Elem
  | kk :: v :: rest =>
      if kk.tag == "key" && kk.text == some k then some v else specPairGo k rest
  | _ => none

/-- Spec-side lookup: scan the dict's own alternating `key, value`
children and return the value paired with the first matching key. -/
def specPairLookup (d : Elem) (k : String) : Option Elem :=
  specPairGo k d.children

/-! ## Write logs (proof machinery for the mutation pass)

A pass over the tree is a sequence of in-place text writes; replaying a
log of `(identity, value)` pairs over the original tree reproduces any
intermediate state. -/

/-- Replay a log of text writes over a tree. -/
def applyWrites (e : Elem) (ws : List (Nat × String)) : Elem :=
  ws.foldl (fun a w => setText a w.1 w.2) e

/-- The text an element with identity `i` and original text `t` has after
replaying the log. -/
def textFold (ws : List (Nat × String)) (i : Nat) (t : Option String) : Option String :=
  ws.foldl (fun a w => if w.1 = i then some w.2 else a) t

/-- `p` immediately precedes `e` in the listing `l`. -/
def Adj (l : List Elem) (p e : Elem) : Prop :=
  ∃ u v, l = u ++ p :: e :: v

/-- The element with identity `i` sits, somewhere in the document,
immediately after a `key` element whose text is `kname` (so a
`get_dict_value` scan for `kname` can return it). -/
def KeyPred (root : Elem) (kname : String) (i : Nat) : Prop :=
  ∃ p e, Adj root.iter p e ∧ e.eid = i ∧ p.tag = "key" ∧ p.text = some kname

/-- In the original tree, every element with identity `i` carries text
`"0"` or `"1"` (true of every element the pass ever writes to, because
the guard checked its text first). -/
def origText01 (root : Elem) (i : Nat) : Prop :=
  ∀ e ∈ root.iter, e.eid = i → (e.text = some "0" ∨ e.text = some "1")

/-- A log the fix pass can produce over `root`: `"0"` is only ever
written to a `PixelEncoding`-paired element, `"1"` only to a
`Range`-paired one, and written elements originally held `"0"`/`"1"`. -/
def ValidLog (root : Elem) (ws : List (Nat × String)) : Prop :=
  ∀ w ∈ ws,
    ((w.2 = "0" ∧ KeyPred root "PixelEncoding" w.1) ∨
     (w.2 = "1" ∧ KeyPred root "Range" w.1)) ∧ origText01 root w.1

/-! ## Plist values and their two decoded views (for the pre-check claim)

A property-list value; `plutil -convert xml1` + `ET.fromstring` shows it
as an `Elem` tree, `plutil -convert json` + `json.loads` as a `JVal`.
The identity components of the XML view are irrelevant to the view
claims and are all `0`. -/

/-- A property-list value. -/
inductive PV : Type where
  | str (s : String)
  | int (n : Int)
  | dict (es : List (String × PV))
  | arr (vs : List PV)

mutual
/-- The XML tree view of a plist value: a `dict` becomes a `<dict>` with
alternating `<key>`/value children, an array an `<array>`, a string a
`<string>` leaf, an integer an `<integer>` leaf. -/
def PV.toXml : PV → Elem
  | .str s => .node 0 "string" (some s) []
  | .int n => .node 0 "integer" (some (toString n)) []
  | .dict es => .node 0 "dict" none (dictChildren es)
  | .arr vs => .node 0 "array" none (arrChildren vs)

/-- Children of a `<dict>`: `key, value, key, value, …`. -/
def dictChildren : List (String × PV) → List Elem
  | [] => []
  | (k, v) :: rest => .node 0 "key" (some k) [] :: PV.toXml v :: dictChildren rest

/-- Children of an `<array>`. -/
def arrChildren : List PV → List Elem
  | [] => []
  | v :: rest => PV.toXml v :: arrChildren rest
end

mutual
/-- The JSON mapping view of the same plist value. -/
def PV.toJson : PV → JVal
  | .str s => .strJ s
  | .int n => .intJ n
  | .dict es => .obj (jsonFields es)
  | .arr vs => .arrJ (jsonElems vs)

/-- Fields of a JSON object. -/
def jsonFields : List (String × PV) → List (String × JVal)
  | [] => []
  | (k, v) :: rest => (k, PV.toJson v) :: jsonFields rest

/-- Elements of a JSON array. -/
def jsonElems : List PV → List JVal
  | [] => []
  | v :: rest => PV.toJson v :: jsonElems rest
end

/-- Last-binding-wins lookup in a plist dict, mirroring what a Python
dict built from the JSON text sees. -/
def pvLast (es : List (String × PV)) (k : String) : Option PV :=
  es.foldl (fun acc p => if p.1 = k then some p.2 else acc) none

/-- Subterm relation on plist values. -/
inductive SubPV : PV → PV → Prop where
  | refl (v : PV) : SubPV v v
  | dictStep (k : String) (v w : PV) (es : List (String × PV)) :
      (k, v) ∈ es → SubPV w v → SubPV w (.dict es)
  | arrStep (v w : PV) (vs : List PV) :
      v ∈ vs → SubPV w v → SubPV w (.arr vs)

/-- A document contains `"LinkDescription"` as *string data* rather than
as a dict key: either a string value with `"LinkDescription"` as a
substring, or an array holding the exact string `"LinkDescription"`.
Python's `in` operator makes the JSON pre-check accept these while the
XML walk (which matches only `key` elements) does not. -/
def weirdHit (doc : PV) : Prop :=
  ∃ v, SubPV v doc ∧
    ((∃ s, v = PV.str s ∧ "LinkDescription".toList <:+: s.toList) ∨
     (∃ us, v = PV.arr us ∧ PV.str "LinkDescription" ∈ us))

/-- A well-formed alternating `key, value, …` child listing (the spec's
§3 invariant: keys are string leaves) in which, additionally, no key
named `k` hides inside any value's subtree. -/
inductive CleanKV (k : String) : List Elem → Prop where
  | nil : CleanKV k []
  | cons (kk v : Elem) (rest : List Elem) :
      kk.tag = "key" → kk.children = [] → v.tag ≠ "key" →
      (∀ x ∈ v.iter, ¬(x.tag = "key" ∧ x.text = some k)) →
      CleanKV k rest → CleanKV k (kk :: v :: rest)

/-! ## Concrete documents used in counterexamples and witnesses -/

/-- A display-preferences document with a single display config whose
`LinkDescription` carries the YPbPr signature (`PixelEncoding "1"`,
`Range "0"`). -/
def doc1 : Elem :=
  .node 0 "plist" none [
    .node 1 "dict" none [
      .node 2 "key" (some "DisplayAnyUserSets") [],
      .node 3 "dict" none [
        .node 4 "key" (some "Configs") [],
        .node 5 "array" none [
          .node 6 "array" none [
            .node 7 "dict" none [
              .node 8 "key" (some "UUID") [],
              .node 9 "string" (some "uuid-1") [],
              .node 10 "key" (some "LinkDescription") [],
              .node 11 "dict" none [
                .node 12 "key" (some "PixelEncoding") [],
                .node 13 "string" (some "1") [],
                .node 14 "key" (some "Range") [],
                .node 15 "string" (some "0") []]]]]]]]

/-- `doc1` after the fix: `PixelEncoding` rewritten to `"0"`, `Range`
to `"1"`. -/
def doc1Fixed : Elem :=
  .node 0 "plist" none [
    .node 1 "dict" none [
      .node 2 "key" (some "DisplayAnyUserSets") [],
      .node 3 "dict" none [
        .node 4 "key" (some "Configs") [],
        .node 5 "array" none [
          .node 6 "array" none [
            .node 7 "dict" none [
              .node 8 "key" (some "UUID") [],
              .node 9 "string" (some "uuid-1") [],
              .node 10 "key" (some "LinkDescription") [],
              .node 11 "dict" none [
                .node 12 "key" (some "PixelEncoding") [],
                .node 13 "string" (some "0") [],
                .node 14 "key" (some "Range") [],
                .node 15 "string" (some "1") []]]]]]]]

/-- The config element of `doc1` (the one `findall` captures). -/
def doc1Config : Elem :=
  .node 7 "dict" none [
    .node 8 "key" (some "UUID") [],
    .node 9 "string" (some "uuid-1") [],
    .node 10 "key" (some "LinkDescription") [],
    .node 11 "dict" none [
      .node 12 "key" (some "PixelEncoding") [],
      .node 13 "string" (some "1") [],
      .node 14 "key" (some "Range") [],
      .node 15 "string" (some "0") []]]

/-- A dict whose first value nests a dict that also carries a key `"B"`:
the nested pair shadows the outer one for `get_dict_value`. -/
def c4dict : Elem :=
  .node 0 "dict" none [
    .node 1 "key" (some "A") [],
    .node 2 "dict" none [
      .node 3 "key" (some "B") [],
      .node 4 "string" (some "1") []],
    .node 5 "key" (some "B") [],
    .node 6 "string" (some "2") []]

/-- A flat dict with no nested keys at all. -/
def c4clean : Elem :=
  .node 0 "dict" none [
    .node 1 "key" (some "A") [],
    .node 2 "string" (some "x") [],
    .node 3 "key" (some "B") [],
    .node 4 "string" (some "2") []]

/-- A document with two display configs: the first fixable, the second
with a `LinkDescription` dict that lacks the `Range` leaf. -/
def doc5 : Elem :=
  .node 0 "plist" none [
    .node 1 "dict" none [
      .node 2 "key" (some "UUID") [],
      .node 3 "string" (some "u-a") [],
      .node 4 "key" (some "LinkDescription") [],
      .node 5 "dict" none [
        .node 6 "key" (some "PixelEncoding") [],
        .node 7 "string" (some "1") [],
        .node 8 "key" (some "Range") [],
        .node 9 "string" (some "0") []]],
    .node 10 "dict" none [
      .node 11 "key" (some "UUID") [],
      .node 12 "string" (some "u-b") [],
      .node 13 "key" (some "LinkDescription") [],
      .node 14 "dict" none [
        .node 15 "key" (some "PixelEncoding") [],
        .node 16 "string" (some "1") []]]]

/-- `doc5` with the first config fixed (the state in which the second
config's missing `Range` leaf then aborts the pass). -/
def doc5AfterFirst : Elem :=
  .node 0 "plist" none [
    .node 1 "dict" none [
      .node 2 "key" (some "UUID") [],
      .node 3 "string" (some "u-a") [],
      .node 4 "key" (some "LinkDescription") [],
      .node 5 "dict" none [
        .node 6 "key" (some "PixelEncoding") [],
        .node 7 "string" (some "0") [],
        .node 8 "key" (some "Range") [],
        .node 9 "string" (some "1") []]],
    .node 10 "dict" none [
      .node 11 "key" (some "UUID") [],
      .node 12 "string" (some "u-b") [],
      .node 13 "key" (some "LinkDescription") [],
      .node 14 "dict" none [
        .node 15 "key" (some "PixelEncoding") [],
        .node 16 "string" (some "1") []]]]

/-- A plist whose one config entry keeps its `LinkDescription` in the
*second* per-display dict; the JSON pre-check inspects only
`config[0]`. -/
def cex7 : PV :=
  .dict [("DisplayAnyUserSets", .dict [("Configs", .arr [
    .arr [
      .dict [("UUID", .str "u")],
      .dict [("LinkDescription",
        .dict [("PixelEncoding", .str "1"), ("Range", .str "0")])]]])])]

/-- A decoded document with no `LinkDescription` anywhere (used to show
a later candidate would have processed fine). -/
def docOK : Elem := .node 0 "plist" none [.node 1 "dict" none []]

/-- The JSON view of `docOK`. -/
def jsonOK : JVal := .obj []

/-- A JSON view on which the pre-check succeeds (a config whose first
element holds a `LinkDescription` field). -/
def j5 : JVal :=
  .obj [("DisplayAnyUserSets", .obj [("Configs", .arrJ [
    .arrJ [.obj [("LinkDescription", .obj [])]]])])]

/-- Exactly the texts of the elements with identities `peId` (set to
`"0"`) and `rgId` (set then to `"1"`) differ between `root` and `root'`:
node for node, identities, tags, child counts and all other texts
agree. -/
def OnlyTextsChanged (root root' : Elem) (peId rgId : Nat) : Prop :=
  root'.iter = root.iter.map (fun x => setText (setText x peId "0") rgId "1") ∧
  ∀ x ∈ root.iter,
    (setText (setText x peId "0") rgId "1").eid = x.eid ∧
    (setText (setText x peId "0") rgId "1").tag = x.tag ∧
    (setText (setText x peId "0") rgId "1").children.length = x.children.length ∧
    (setText (setText x peId "0") rgId "1").text =
      (if x.eid = rgId then some "1" else if x.eid = peId then some "0" else x.text)

/-- The value `prev_key` holds after scanning a whole segment. -/
def prevAfter (p : Option String) (l : List Elem) : Option String :=
  l.foldl (fun _ e => keyOf e) p

/-- A plist document the pre-check accepts through a genuine dict field:
one config whose first per-display dict contains `LinkDescription`. -/
def c7good : PV :=
  .dict [("DisplayAnyUserSets", .dict [("Configs", .arr [
    .arr [.dict [("UUID", .str "u"),
      ("LinkDescription", .dict [("PixelEncoding", .str "1"), ("Range", .str "0")])]]])])]

/-! # Theorems -/

/-- Induction over `Elem` with the hypothesis available for every child. -/
theorem Elem.ind {P : Elem → Prop}
    (h : ∀ i t tx cs, (∀ c ∈ cs, P c) → P (Elem.node i t tx cs)) :
    ∀ e, P e := by
  have key : ∀ n (e : Elem), sizeOf e ≤ n → P e := by
    intro n
    induction n with
    | zero =>
        intro e he
        cases e with
        | node i t tx cs => simp at he
    | succ n ih =>
        intro e he
        cases e with
        | node i t tx cs =>
            refine h i t tx cs ?_
            intro c hc
            refine ih c ?_
            have h1 : sizeOf c < sizeOf cs := List.sizeOf_lt_of_mem hc
            have h2 : sizeOf cs < sizeOf (Elem.node i t tx cs) := by
              simp [Elem.node.sizeOf_spec]
            omega
  intro e
  exact key (sizeOf e) e le_rfl


/-! ## C6 — decode failure aborts the whole run (code bug) -/

/-- C6: when the decode of one candidate file's bytes fails, the `except`
branch only logs and control falls through to an unbound `json_data`,
raising an uncaught `NameError`: the run aborts and the next candidate —
which on its own would have been processed fine — is never reached.
The claim's "processing continues normally with the next candidate path"
is what the code's own catch-and-log clearly intends but fails to do. -/
theorem c6_decode_failure_aborts_run :
    mainLoop [none, some (docOK, jsonOK)] = none ∧
    processPath (some (docOK, jsonOK)) = some Outcome.skipped :=
  ⟨rfl, rfl⟩

/-! ## C8 — pager origin clamping (corrected) -/

/-- C8 counterexample: content of 5 lines shown in a 24-row viewport;
one down-arrow sets `pad_top` to `min(5 - 24, 0 + 1) = -19`, violating
the claimed `0 ≤ row` clamp (the code has no lower clamp on the
down/right direction). -/
theorem c8_counterexample :
    displayStep 5 200 24 80 (0, 0) DKey.down = (-19, 0) ∧ ¬(0 ≤ (-19 : Int)) :=
  ⟨by decide, by decide⟩

/-- C8 (amended): the invariant `0 ≤ row ≤ max 0 (contentHeight −
viewportHeight)` (and likewise for the column) is preserved by every
movement key only under the proviso that the content is at least as
large as the viewport in both axes; up/left moves clamp at `0`, while
down/right moves clamp only at `content − viewport`, which is negative
when the content is smaller than the viewport. -/
theorem c8_amended (height width winH winW top left : Int) (k : DKey)
    (hh : 0 ≤ winH) (hH : winH ≤ height) (hW : winW ≤ width)
    (ht0 : 0 ≤ top) (ht1 : top ≤ max 0 (height - winH))
    (hl0 : 0 ≤ left) (hl1 : left ≤ max 0 (width - winW)) :
    0 ≤ (displayStep height width winH winW (top, left) k).1 ∧
    (displayStep height width winH winW (top, left) k).1 ≤ max 0 (height - winH) ∧
    0 ≤ (displayStep height width winH winW (top, left) k).2 ∧
    (displayStep height width winH winW (top, left) k).2 ≤ max 0 (width - winW) := by
  have hm : 0 ≤ Int.fdiv winH 2 := Int.fdiv_nonneg hh (by norm_num)
  cases k <;> simp only [displayStep, moveAmount] <;> omega

/-- Witness for the amended C8 theorem: the spec's own scenario, 100
lines in a 24-row viewport with the origin at the bottom bound 76. -/
theorem c8_amended_witness :
    0 ≤ (displayStep 100 200 24 80 (76, 0) DKey.down).1 ∧
    (displayStep 100 200 24 80 (76, 0) DKey.down).1 ≤ max 0 (100 - 24) ∧
    0 ≤ (displayStep 100 200 24 80 (76, 0) DKey.down).2 ∧
    (displayStep 100 200 24 80 (76, 0) DKey.down).2 ≤ max 0 (200 - 80) :=
  c8_amended 100 200 24 80 76 0 DKey.down (by decide) (by decide) (by decide)
    (by decide) (by decide) (by decide) (by decide)

/-! ## C9 — path-list selection safety (corrected) -/

/-- C9 counterexample: with zero entries the body evaluates
`paths[selection]` before reading any key and raises `IndexError`
(there is no empty-state message); and after Enter re-queries a list
that shrank below the selection, the selection is not re-clamped, so
the next iteration crashes. -/
theorem c9_counterexample :
    revertStep [] 0 RKey.start [] = none ∧
    revertStep [("/l/p1", ["b1"]), ("/l/p2", ["b2"])] 1 RKey.enter [("/l/p1", ["b1"])] =
      some (1, [("/l/p1", ["b1"])], "/l/p2") ∧
    revertStep [("/l/p1", ["b1"])] 1 RKey.other [] = none :=
  ⟨rfl, rfl, rfl⟩

/-- C9 (amended): while the path list is nonempty and the selection is
in range, one iteration keeps the selection inside `[0, len − 1]` of the
list it displayed and does not raise; the list is only replaced on
Enter.  With zero entries, or when a re-queried list has shrunk to at
most the selection, the iteration instead raises `IndexError`. -/
theorem c9_amended (locs : List (String × List String)) (sel : Int) (k : RKey)
    (req : List (String × List String))
    (hne : locs ≠ []) (h0 : 0 ≤ sel) (h1 : sel ≤ (locs.length : Int) - 1) :
    ∃ sel' locs' p, revertStep locs sel k req = some (sel', locs', p) ∧
      0 ≤ sel' ∧ sel' ≤ (locs.length : Int) - 1 ∧
      (k ≠ RKey.enter → locs' = locs) := by
  have hlen : 0 < locs.length := List.length_pos.mpr hne
  set sel1 := if k = RKey.up then max (sel - 1) 0 else sel with hsel1
  set sel2 := if k = RKey.down then min (sel1 + 1) ((locs.length : Int) - 1) else sel1
    with hsel2
  have hb : 0 ≤ sel2 ∧ sel2 ≤ (locs.length : Int) - 1 := by
    rw [hsel2, hsel1]
    split_ifs <;> omega
  have hlt : sel2.toNat < (locs.map Prod.fst).length := by
    rw [List.length_map]
    omega
  obtain ⟨p, hp⟩ : ∃ p, (locs.map Prod.fst).get? sel2.toNat = some p := by
    cases hg : (locs.map Prod.fst).get? sel2.toNat with
    | none =>
        rw [List.get?_eq_none] at hg
        omega
    | some p => exact ⟨p, rfl⟩
  have hpy : pyIndex (locs.map Prod.fst) sel2 = some p := by
    rw [pyIndex, if_pos hb.1]
    exact hp
  refine ⟨sel2, if k = RKey.enter then req else locs, p, ?_, hb.1, hb.2, ?_⟩
  · rw [revertStep, ← hsel1, ← hsel2, hpy]
    split_ifs with he
    · simp [he]
    · simp [he]
  · intro hk
    simp [hk]

/-- Witness for the amended C9 theorem: a one-entry list with the
selection at 0 and a down key. -/
theorem c9_amended_witness :
    ∃ sel' locs' p,
      revertStep [("/l/p1", ["b1"])] 0 RKey.down [] = some (sel', locs', p) ∧
      0 ≤ sel' ∧ sel' ≤ (([("/l/p1", ["b1"])] : List (String × List String)).length : Int) - 1 ∧
      (RKey.down ≠ RKey.enter → locs' = [("/l/p1", ["b1"])]) :=
  c9_amended [("/l/p1", ["b1"])] 0 RKey.down [] (by decide) (by decide) (by decide)

/-! ## C10 — backup listing is hard-coded (code bug) -/

/-- C10: `get_backups` returns the hard-coded single-element list left
in by the `# TODO: REMOVE ME` early return, for every path and whatever
is on disk; the `directory.glob(f"{filename}.bak.*")` line the claim
describes is dead code.  Consequently `get_backup_locations` never
filters a path out: with an empty disk every monitored path is still
listed with the phantom backup. -/
theorem c10_hardcoded_backups :
    get_backups [] "/Library/Preferences/com.apple.windowserver.displays.plist" =
      [hardcodedBackup] ∧
    [hardcodedBackup] ≠ ([] : List String) ∧
    get_backup_locations
        ["/Library/Preferences/com.apple.windowserver.displays.plist"]
        (fun _ => []) =
      [("/Library/Preferences/com.apple.windowserver.displays.plist", [hardcodedBackup])] :=
  ⟨rfl, List.cons_ne_nil _ _, rfl⟩

/-! ## Basic facts about `setText` and `iter` -/

/-- `setText` never changes an element's identity. -/
theorem setText_eid (e : Elem) (j : Nat) (v : String) : (setText e j v).eid = e.eid := by
  cases e
  rfl

/-- `setText` never changes an element's tag. -/
theorem setText_tag (e : Elem) (j : Nat) (v : String) : (setText e j v).tag = e.tag := by
  cases e
  rfl

/-- The text after a `setText`, as a function of the element's identity. -/
theorem setText_text (e : Elem) (j : Nat) (v : String) :
    (setText e j v).text = if e.eid = j then some v else e.text := by
  cases e
  rfl

/-- The children after a `setText`. -/
theorem setText_children (e : Elem) (j : Nat) (v : String) :
    (setText e j v).children = setTextList e.children j v := by
  cases e
  rfl

/-- `setTextList` is just `setText` mapped over the list. -/
theorem setTextList_eq_map (l : List Elem) (j : Nat) (v : String) :
    setTextList l j v = l.map (fun e => setText e j v) := by
  induction l with
  | nil => rfl
  | cons e es ih => simp [setTextList, ih]

/-- `setText` commutes with flattening: the preorder listing of the
updated tree is the updated preorder listing. -/
theorem iter_setText (j : Nat) (v : String) :
    ∀ e : Elem, (setText e j v).iter = e.iter.map (fun x => setText x j v) := by
  refine Elem.ind ?_
  intro i t tx cs ih
  have hlist : iterList (setTextList cs j v) = (iterList cs).map (fun x => setText x j v) := by
    induction cs with
    | nil => rfl
    | cons c cs2 ih2 =>
        simp only [setTextList, iterList, List.map_append]
        rw [ih c (by simp)]
        rw [ih2 (fun c2 hc2 => ih c2 (by simp [hc2]))]
  simp only [setText, Elem.iter, List.map_cons]
  rw [hlist]

/-! ## C1 — the guard and selective mutation of `fix_config` (confirmed) -/

/-- C1: whenever `fix_config` runs to completion on a config subtree (its
structural asserts pass), it reports the config as fixed exactly when the
located `PixelEncoding` text was `"1"` and the `Range` text was `"0"`
beforehand; on a mismatch the whole tree is returned untouched, and on a
match the only changes anywhere are the `PixelEncoding` text becoming
`"0"` and the `Range` text becoming `"1"` — identities, tags, child
counts, ordering and every other text are preserved node for node. -/
theorem c1_fix_config_guard (root config : Elem) (b : Bool) (root' : Elem)
    (h : fix_config root config = some (b, root')) :
    ∃ ld pe rg,
      get_dict_value config "LinkDescription" = some ld ∧
      get_dict_value ld "PixelEncoding" = some pe ∧
      get_dict_value ld "Range" = some rg ∧
      (b = true ↔ (pe.text = some "1" ∧ rg.text = some "0")) ∧
      (b = false → root' = root) ∧
      (b = true → root' = setText (setText root pe.eid "0") rg.eid "1" ∧
        OnlyTextsChanged root root' pe.eid rg.eid) := by
  unfold fix_config at h
  cases hld : get_dict_value config "LinkDescription" with
  | none => rw [hld] at h; exact absurd h (by simp)
  | some ld =>
    rw [hld] at h
    simp only [Option.bind_eq_bind, Option.some_bind] at h
    by_cases hassert : (ld.children.isEmpty || ld.tag != "dict") = true
    · rw [if_pos hassert] at h; exact absurd h (by simp)
    · rw [if_neg hassert] at h
      cases hpe : get_dict_value ld "PixelEncoding" with
      | none => rw [hpe] at h; exact absurd h (by simp)
      | some pe =>
        rw [hpe] at h
        simp only [Option.some_bind] at h
        cases hrg : get_dict_value ld "Range" with
        | none => rw [hrg] at h; exact absurd h (by simp)
        | some rg =>
          rw [hrg] at h
          simp only [Option.some_bind] at h
          refine ⟨ld, pe, rg, rfl, hpe, hrg, ?_⟩
          by_cases hg : (pe.text != some "1" || rg.text != some "0") = true
          · rw [if_pos hg] at h
            simp only [Option.some_inj, Prod.mk.injEq] at h
            obtain ⟨hb, hr⟩ := h
            subst hb
            subst hr
            simp only [bne_iff_ne, ne_eq, Bool.or_eq_true, decide_eq_true_eq] at hg
            refine ⟨?_, ?_, ?_⟩
            · constructor
              · intro hfalse
                exact absurd hfalse (by decide)
              · intro hpair
                rcases hg with hg | hg
                · exact absurd hpair.1 hg
                · exact absurd hpair.2 hg
            · intro _
              rfl
            · intro hfalse
              exact absurd hfalse (by decide)
          · rw [if_neg hg] at h
            simp only [Option.some_inj, Prod.mk.injEq] at h
            obtain ⟨hb, hr⟩ := h
            subst hb
            simp only [bne_iff_ne, ne_eq, Bool.or_eq_true, decide_eq_true_eq, not_or,
              not_not] at hg
            refine ⟨by simp [hg.1, hg.2], ?_, ?_⟩
            · intro hfalse
              exact absurd hfalse (by decide)
            intro _
            refine ⟨hr.symm, ?_, ?_⟩
            · rw [← hr, iter_setText, iter_setText, List.map_map]
              rfl
            · intro x hx
              refine ⟨by rw [setText_eid, setText_eid], by rw [setText_tag, setText_tag], ?_, ?_⟩
              · rw [setText_children, setText_children, setTextList_eq_map, setTextList_eq_map]
                simp
              · rw [setText_text, setText_eid, setText_text]

/-- Witness for C1: `fix_config` on `doc1`'s config takes the fixing
branch and produces exactly `doc1Fixed`. -/
theorem c1_witness :
    ∃ ld pe rg,
      get_dict_value doc1Config "LinkDescription" = some ld ∧
      get_dict_value ld "PixelEncoding" = some pe ∧
      get_dict_value ld "Range" = some rg ∧
      (true = true ↔ (pe.text = some "1" ∧ rg.text = some "0")) ∧
      (true = false → doc1Fixed = doc1) ∧
      (true = true → doc1Fixed = setText (setText doc1 pe.eid "0") rg.eid "1" ∧
        OnlyTextsChanged doc1 doc1Fixed pe.eid rg.eid) :=
  c1_fix_config_guard doc1 doc1Config true doc1Fixed rfl

/-! ## C5 — a missing leaf aborts the whole pass (corrected) -/

/-- C5 counterexample: in `doc5` the first config is fixable and the
second lacks the `Range` leaf.  On its own the first step fixes and
counts one display, but the whole loop over both captured configs
returns `none` — the bare `assert` in `fix_config` is caught nowhere, so
the `AssertionError` propagates: the failure is *not* contained to the
one config entry, nothing is logged-and-continued, and the earlier fix
is never reported or written (`fix_display_prefs` dies before
`write_output`). -/
theorem c5_counterexample :
    configIds doc5 = [1, 10] ∧
    fixStep doc5 1 = some (doc5AfterFirst, 1) ∧
    fixLoop doc5 (configIds doc5) = none ∧
    has_any_link_description j5 = some true ∧
    fixDocument doc5 j5 = none :=
  ⟨rfl, rfl, rfl, rfl, rfl⟩

/-- C5 (amended): when a config entry (with a `UUID`) fails the
structural assumption — `fix_config`'s asserts on the nested
`LinkDescription`/`PixelEncoding`/`Range` — the uncaught
`AssertionError` aborts the whole document pass at that entry: the
remaining entries are never evaluated and no count (hence no fix
already applied in memory) survives to be written. -/
theorem c5_assert_aborts_pass (root cfg u : Elem) (i : Nat) (rest : List Nat)
    (hfind : findById root i = some cfg)
    (huuid : get_dict_value cfg "UUID" = some u)
    (hassert : fix_config root cfg = none) :
    fixLoop root (i :: rest) = none := by
  unfold fixLoop fixStep
  rw [hfind]
  simp only [Option.bind_eq_bind, Option.some_bind]
  rw [huuid, hassert]
  rfl

/-- Witness for the amended C5 theorem: the second config of
`doc5AfterFirst` (missing its `Range` leaf) aborts a pass that would
have continued to any remaining entries. -/
theorem c5_amended_witness : fixLoop doc5AfterFirst [10] = none :=
  c5_assert_aborts_pass doc5AfterFirst
    (.node 10 "dict" none [
      .node 11 "key" (some "UUID") [],
      .node 12 "string" (some "u-b") [],
      .node 13 "key" (some "LinkDescription") [],
      .node 14 "dict" none [
        .node 15 "key" (some "PixelEncoding") [],
        .node 16 "string" (some "1") []]])
    (.node 12 "string" (some "u-b") []) 10 [] rfl rfl rfl

/-! ## C4 — key/value lookup vs. positional pairing (corrected) -/

/-- Helper: an element with no children flattens to itself alone. -/
theorem iter_eq_single (e : Elem) (h : e.children = []) : e.iter = [e] := by
  cases e with
  | node i t tx cs =>
      simp only [Elem.children] at h
      subst h
      rfl

/-- `prevAfter` on an empty segment. -/
theorem prevAfter_nil (p : Option String) : prevAfter p [] = p := rfl

/-- `prevAfter` steps through the head of a segment. -/
theorem prevAfter_cons (p : Option String) (x : Elem) (l : List Elem) :
    prevAfter p (x :: l) = prevAfter (keyOf x) l := rfl

/-- A hit inside the first segment survives appending a second one. -/
theorem gdvAux_append_some (k : String) (l₁ l₂ : List Elem) (p : Option String) (e : Elem)
    (h : gdvAux k p l₁ = some e) : gdvAux k p (l₁ ++ l₂) = some e := by
  induction l₁ generalizing p with
  | nil => simp [gdvAux] at h
  | cons x rest ih =>
      rw [List.cons_append, gdvAux]
      rw [gdvAux] at h
      by_cases hp : p = some k
      · rw [if_pos hp] at h ⊢
        exact h
      · rw [if_neg hp] at h ⊢
        exact ih _ h

/-- Scanning past a missed first segment continues into the second with
the threaded `prev_key`. -/
theorem gdvAux_append_none (k : String) (l₁ l₂ : List Elem) (p : Option String)
    (h : gdvAux k p l₁ = none) :
    gdvAux k p (l₁ ++ l₂) = gdvAux k (prevAfter p l₁) l₂ := by
  induction l₁ generalizing p with
  | nil => rfl
  | cons x rest ih =>
      rw [List.cons_append, gdvAux, prevAfter_cons]
      rw [gdvAux] at h
      by_cases hp : p = some k
      · rw [if_pos hp] at h
        exact absurd h (by simp)
      · rw [if_neg hp] at h ⊢
        exact ih _ h

/-- A segment containing no `key` named `k` can neither produce a hit
nor leave `prev_key` primed for one. -/
theorem gdvAux_no_key (k : String) (l : List Elem) (p : Option String)
    (hp : p ≠ some k) (hl : ∀ x ∈ l, keyOf x ≠ some k) :
    gdvAux k p l = none ∧ prevAfter p l ≠ some k := by
  induction l generalizing p with
  | nil => exact ⟨rfl, hp⟩
  | cons x rest ih =>
      rw [gdvAux, if_neg hp, prevAfter_cons]
      exact ih (keyOf x) (hl x (by simp)) (fun y hy => hl y (by simp [hy]))

/-- Over a clean alternating child listing, the flattened scan agrees
with the positional pair scan. -/
theorem gdvAux_cleanKV (k : String) (l : List Elem) (hc : CleanKV k l) :
    ∀ p, p ≠ some k → gdvAux k p (iterList l) = specPairGo k l := by
  induction hc with
  | nil =>
      intro p hp
      rfl
  | cons kk v rest hkk hkch hv hnov hrest ih =>
      intro p hp
      have hkiter : kk.iter = [kk] := iter_eq_single kk hkch
      have hkeyOf : keyOf kk = kk.text := by rw [keyOf, if_pos hkk]
      have hviter : ∃ vr, v.iter = v :: vr := by
        cases v with
        | node i t tx cs => exact ⟨iterList cs, rfl⟩
      obtain ⟨vr, hvr⟩ := hviter
      have hnokey : ∀ x ∈ v.iter, keyOf x ≠ some k := by
        intro x hx
        rw [keyOf]
        split_ifs with htag
        · intro htxt
          exact hnov x hx ⟨htag, htxt⟩
        · simp
      show gdvAux k p (iterList (kk :: v :: rest)) = specPairGo k (kk :: v :: rest)
      rw [iterList, iterList, hkiter]
      rw [List.singleton_append, gdvAux, if_neg hp, hkeyOf]
      rw [specPairGo]
      by_cases hmatch : kk.text = some k
      · rw [if_pos ((Bool.and_eq_true _ _).mpr ⟨by simp [hkk], by simp [hmatch]⟩)]
        rw [hmatch, hvr, List.cons_append, gdvAux, if_pos rfl]
      · rw [if_neg (by simp [hmatch])]
        have hseg := gdvAux_no_key k v.iter kk.text hmatch hnokey
        rw [gdvAux_append_none k v.iter (iterList rest) kk.text hseg.1]
        exact ih (prevAfter kk.text v.iter) hseg.2

/-- C4 counterexample: on `c4dict` — children
`key "A", dict [key "B", value "1"], key "B", value "2"` — looking up
`"B"` returns the element (identity 4) found *inside the descendant
dict* under `"A"`'s value, not the value (identity 6) positionally
paired with the dict's own `key "B"`, because `get_dict_value` scans the
entire `iter()` flattening, shadowing the outer pair. -/
theorem c4_counterexample :
    get_dict_value c4dict "B" = some (.node 4 "string" (some "1") []) ∧
    specPairLookup c4dict "B" = some (.node 6 "string" (some "2") []) ∧
    (Elem.node 4 "string" (some "1") []).eid ≠ (Elem.node 6 "string" (some "2") []).eid ∧
    Elem.node 4 "string" (some "1") [] ∈
      (Elem.node 2 "dict" none
        [.node 3 "key" (some "B") [], .node 4 "string" (some "1") []]).iter := by
  refine ⟨rfl, rfl, by decide, ?_⟩
  simp [Elem.iter, iterList]

/-- C4 (amended): `get_dict_value` returns the element immediately
following the first matching `key` in the preorder flattening of the
whole subtree, which may come from a descendant; it agrees with the
positional own-children pairing exactly when the dict's children
alternate leaf-key/value and no key of the looked-up name occurs inside
any value's subtree. -/
theorem c4_amended (d : Elem) (k : String) (hd : d.tag = "dict")
    (hc : CleanKV k d.children) :
    get_dict_value d k = specPairLookup d k := by
  rw [get_dict_value, specPairLookup]
  cases d with
  | node i t tx cs =>
      simp only [Elem.tag] at hd
      simp only [Elem.children] at hc
      show gdvAux k none (Elem.iter (.node i t tx cs)) = specPairGo k cs
      rw [Elem.iter, gdvAux, if_neg (by simp)]
      have hko : keyOf (Elem.node i t tx cs) = none := by
        rw [keyOf]
        rw [show (Elem.node i t tx cs).tag = t from rfl]
        rw [hd]
        simp
      rw [hko]
      exact gdvAux_cleanKV k cs hc none (by simp)

/-- Witness for the amended C4 theorem: on the flat dict `c4clean` the
lookup and the positional pairing coincide on the concrete value. -/
theorem c4_amended_witness :
    get_dict_value c4clean "B" = some (.node 4 "string" (some "2") []) := by
  have h := c4_amended c4clean "B" rfl ?_
  · exact h.trans rfl
  · refine CleanKV.cons _ _ _ rfl rfl (by decide) ?_
      (CleanKV.cons _ _ _ rfl rfl (by decide) ?_ CleanKV.nil)
    · intro x hx
      simp only [Elem.iter, iterList, List.mem_singleton] at hx
      subst hx
      decide
    · intro x hx
      simp only [Elem.iter, iterList, List.mem_singleton] at hx
      subst hx
      decide

/-! ## C7 — the JSON pre-check versus the XML walk (corrected) -/

/-- `jsonElems` is `toJson` mapped over the list. -/
theorem jsonElems_eq_map (vs : List PV) : jsonElems vs = vs.map PV.toJson := by
  induction vs with
  | nil => rfl
  | cons v rest ih => simp [jsonElems, ih]

/-- `jsonFields` is `toJson` mapped over the values. -/
theorem jsonFields_eq_map (es : List (String × PV)) :
    jsonFields es = es.map (fun p => (p.1, PV.toJson p.2)) := by
  induction es with
  | nil => rfl
  | cons p rest ih =>
      cases p with
      | mk k v => simp [jsonFields, ih]

/-- The dict-lookup fold over the JSON image agrees with the fold over
the plist fields. -/
theorem fold_fields (k : String) (es : List (String × PV)) :
    ∀ acc : Option PV,
      (jsonFields es).foldl (fun a p => if p.1 = k then some p.2 else a) (acc.map PV.toJson) =
        (es.foldl (fun a p => if p.1 = k then some p.2 else a) acc).map PV.toJson := by
  induction es with
  | nil =>
      intro acc
      rfl
  | cons p rest ih =>
      intro acc
      cases p with
      | mk k' v' =>
          simp only [jsonFields, List.foldl_cons]
          by_cases h : k' = k
          · rw [if_pos h, if_pos h]
            exact ih (some v')
          · rw [if_neg h, if_neg h]
            exact ih acc

/-- A hit of the last-wins fold is one of the bindings. -/
theorem pvFold_mem (k : String) (es : List (String × PV)) :
    ∀ acc w, es.foldl (fun a p => if p.1 = k then some p.2 else a) acc = some w →
      (k, w) ∈ es ∨ acc = some w := by
  induction es with
  | nil =>
      intro acc w h
      exact Or.inr h
  | cons p rest ih =>
      intro acc w h
      cases p with
      | mk k' v' =>
          simp only [List.foldl_cons] at h
          by_cases hk : k' = k
          · rw [if_pos hk] at h
            rcases ih (some v') w h with hmem | hacc
            · exact Or.inl (List.mem_cons_of_mem _ hmem)
            · subst hk
              simp only [Option.some_inj] at hacc
              subst hacc
              exact Or.inl (List.mem_cons_self _ _)
          · rw [if_neg hk] at h
            rcases ih acc w h with hmem | hacc
            · exact Or.inl (List.mem_cons_of_mem _ hmem)
            · exact Or.inr hacc

/-- A successful last-wins lookup returns one of the dict's bindings. -/
theorem pvLast_mem (es : List (String × PV)) (k : String) (w : PV)
    (h : pvLast es k = some w) : (k, w) ∈ es := by
  rcases pvFold_mem k es none w h with hmem | habs
  · exact hmem
  · exact absurd habs (by simp)

/-- What a successful `.get` on the JSON image of a plist value tells us
about the plist value itself. -/
theorem jGetDefault_toJson (doc : PV) (k : String) (dflt x : JVal)
    (h : jGetDefault (PV.toJson doc) k dflt = some x) :
    ∃ es, doc = PV.dict es ∧
      ((pvLast es k = none ∧ x = dflt) ∨
       ∃ w, pvLast es k = some w ∧ x = PV.toJson w) := by
  cases doc with
  | str s => exact absurd h (by simp [PV.toJson, jGetDefault])
  | int n => exact absurd h (by simp [PV.toJson, jGetDefault])
  | arr vs => exact absurd h (by simp [PV.toJson, jGetDefault])
  | dict es =>
      refine ⟨es, rfl, ?_⟩
      simp only [PV.toJson, jGetDefault, Option.some_inj] at h
      have hf := fold_fields k es none
      simp only [Option.map_none'] at hf
      rw [hf] at h
      cases hlast : pvLast es k with
      | none =>
          have hl2 : List.foldl (fun acc p => if p.1 = k then some p.2 else acc) none es = none :=
            hlast
          rw [hl2] at h
          exact Or.inl ⟨rfl, h.symm⟩
      | some w =>
          have hl2 : List.foldl (fun acc p => if p.1 = k then some p.2 else acc) none es = some w :=
            hlast
          rw [hl2] at h
          exact Or.inr ⟨w, rfl, by simp [← h]⟩

/-- A `True` from the pre-check loop exhibits a config entry passing all
three short-circuit tests. -/
theorem hasAnyLoop_true (items : List JVal) (h : hasAnyLoop items = some true) :
    ∃ c ∈ items, jTruthy c = true ∧
      ∃ c0, jIndex0 c = some c0 ∧ jTruthy c0 = true ∧
        jContains c0 "LinkDescription" = some true := by
  induction items with
  | nil => exact absurd h (by simp [hasAnyLoop])
  | cons c rest ih =>
      rw [hasAnyLoop] at h
      by_cases ht : jTruthy c = true
      · rw [if_pos ht] at h
        cases hc0 : jIndex0 c with
        | none =>
            rw [hc0] at h
            exact absurd h (by simp)
        | some c0 =>
            rw [hc0] at h
            simp only [Option.bind_eq_bind, Option.some_bind] at h
            by_cases ht0 : jTruthy c0 = true
            · rw [if_pos ht0] at h
              cases hb : jContains c0 "LinkDescription" with
              | none =>
                  rw [hb] at h
                  exact absurd h (by simp)
              | some b =>
                  rw [hb] at h
                  simp only [Option.some_bind] at h
                  cases b with
                  | true => exact ⟨c, by simp, ht, c0, hc0, ht0, hb⟩
                  | false =>
                      rw [if_neg (by simp)] at h
                      obtain ⟨c', hc', rest'⟩ := ih h
                      exact ⟨c', by simp [hc'], rest'⟩
            · rw [if_neg ht0] at h
              obtain ⟨c', hc', rest'⟩ := ih h
              exact ⟨c', by simp [hc'], rest'⟩
      · rw [if_neg ht] at h
        obtain ⟨c', hc', rest'⟩ := ih h
        exact ⟨c', by simp [hc'], rest'⟩

/-- Every element is the head of its own flattening. -/
theorem mem_iter_self (e : Elem) : e ∈ e.iter := by
  cases e with
  | node i t tx cs => exact List.mem_cons_self _ _

/-- Anything inside a member's flattening is inside the flattening of
the list. -/
theorem mem_iterList_of_mem (l : List Elem) (e : Elem) (he : e ∈ l) :
    ∀ x ∈ e.iter, x ∈ iterList l := by
  induction l with
  | nil => cases he
  | cons c rest ih =>
      intro x hx
      rw [iterList, List.mem_append]
      rcases List.mem_cons.mp he with heq | hmem
      · subst heq
        exact Or.inl hx
      · exact Or.inr (ih hmem x hx)

/-- Anything inside a list flattening is inside some member's
flattening. -/
theorem mem_iterList_elim (l : List Elem) (x : Elem) (hx : x ∈ iterList l) :
    ∃ c ∈ l, x ∈ c.iter := by
  induction l with
  | nil => cases hx
  | cons c rest ih =>
      rw [iterList, List.mem_append] at hx
      rcases hx with h1 | h2
      · exact ⟨c, by simp, h1⟩
      · obtain ⟨c', hc', hx'⟩ := ih h2
        exact ⟨c', by simp [hc'], hx'⟩

/-- Membership in flattenings is transitive. -/
theorem mem_iter_trans (x b : Elem) :
    ∀ a : Elem, b ∈ a.iter → x ∈ b.iter → x ∈ a.iter := by
  refine Elem.ind ?_
  intro i t tx cs ih hb hx
  rw [Elem.iter] at hb ⊢
  rcases List.mem_cons.mp hb with heq | hmem
  · subst heq
    rw [Elem.iter] at hx
    exact hx
  · obtain ⟨c, hc, hbc⟩ := mem_iterList_elim cs b hmem
    exact List.mem_cons_of_mem _ (mem_iterList_of_mem cs c hc x (ih c hc hbc hx))

/-- A dict binding shows up in the XML children as its value node and
its `key` node. -/
theorem toXml_mem_dictChildren (es : List (String × PV)) (k : String) (v : PV)
    (h : (k, v) ∈ es) :
    PV.toXml v ∈ dictChildren es ∧ Elem.node 0 "key" (some k) [] ∈ dictChildren es := by
  induction es with
  | nil => cases h
  | cons p rest ih =>
      cases p with
      | mk k' v' =>
          rw [dictChildren]
          rcases List.mem_cons.mp h with heq | hmem
          · injection heq with hk hv
            subst hk
            subst hv
            exact ⟨by simp, by simp⟩
          · obtain ⟨h1, h2⟩ := ih hmem
            exact ⟨by simp [h1], by simp [h2]⟩

/-- An array member shows up in the XML children. -/
theorem toXml_mem_arrChildren (vs : List PV) (v : PV) (h : v ∈ vs) :
    PV.toXml v ∈ arrChildren vs := by
  induction vs with
  | nil => cases h
  | cons v' rest ih =>
      rw [arrChildren]
      rcases List.mem_cons.mp h with heq | hmem
      · subst heq
        exact List.mem_cons_self _ _
      · exact List.mem_cons_of_mem _ (ih hmem)

/-- The XML view of a subterm occurs in the flattening of the XML view
of the whole value. -/
theorem toXml_mem_iter_of_sub (w v : PV) (h : SubPV w v) :
    PV.toXml w ∈ (PV.toXml v).iter := by
  induction h with
  | refl v => exact mem_iter_self _
  | dictStep k v' w' es hmem hsub ih =>
      show PV.toXml w' ∈ (PV.toXml (PV.dict es)).iter
      rw [PV.toXml, Elem.iter]
      refine List.mem_cons_of_mem _ ?_
      exact mem_iterList_of_mem _ _ (toXml_mem_dictChildren es k v' hmem).1 _ ih
  | arrStep v' w' vs hmem hsub ih =>
      show PV.toXml w' ∈ (PV.toXml (PV.arr vs)).iter
      rw [PV.toXml, Elem.iter]
      refine List.mem_cons_of_mem _ ?_
      exact mem_iterList_of_mem _ _ (toXml_mem_arrChildren vs v' hmem) _ ih

/-- The 15-character needle `"LinkDescription"` cannot be a substring of
a single character. -/
theorem singleton_contains_kill (c : Char)
    (h : jContains (JVal.strJ ⟨[c]⟩) "LinkDescription" = some true) : False := by
  simp only [jContains, Option.some_inj, decide_eq_true_eq] at h
  have hlen := h.length_le
  simp at hlen

/-- `config[0]` of a string is a single character, on which the
substring test for `"LinkDescription"` can never succeed. -/
theorem strJ_c0_kill (s : String) (c0 : JVal)
    (h0 : jIndex0 (JVal.strJ s) = some c0)
    (hc : jContains c0 "LinkDescription" = some true) : False := by
  simp only [jIndex0] at h0
  cases hh : s.toList with
  | nil =>
      rw [hh] at h0
      simp at h0
  | cons ch rest =>
      rw [hh] at h0
      simp only [List.head?, Option.map_some', Option.some_inj] at h0
      subst h0
      exact singleton_contains_kill ch hc

/-- C7 counterexample: `cex7` keeps its `LinkDescription` in the second
per-display dict of the config entry.  The JSON pre-check — which only
inspects `config[0]` — reports absent, while the structural walk finds
exactly one `dict` with a direct `LinkDescription` key: the two views
disagree, refuting the claimed equivalence. -/
theorem c7_counterexample :
    has_any_link_description (PV.toJson cex7) = some false ∧
    (findall_linkdesc (PV.toXml cex7)).length = 1 :=
  ⟨rfl, rfl⟩

/-- C7 (amended): the agreement is one-directional and partial.  When
the pre-check reports absent, `fixDocument` returns immediately with a
skip — count zero, tree untouched, no subtree walk.  When it reports
present, the structural walk is guaranteed to find a `LinkDescription`
dict unless the hit was Python's `in` operator matching
`"LinkDescription"` as *string data* (a substring of a string first
element, or a literal member of a list first element); the converse
direction fails outright (`c7_counterexample`). -/
theorem c7_amended :
    (∀ (root : Elem) (j : JVal), has_any_link_description j = some false →
        fixDocument root j = some Outcome.skipped) ∧
    (∀ doc : PV, has_any_link_description (PV.toJson doc) = some true →
        findall_linkdesc (PV.toXml doc) ≠ [] ∨ weirdHit doc) := by
  constructor
  · intro root j h
    rw [fixDocument, h]
    rfl
  · intro doc htrue
    rw [has_any_link_description] at htrue
    cases hdau : jGetDefault (PV.toJson doc) "DisplayAnyUserSets" (JVal.obj []) with
    | none =>
        rw [hdau] at htrue
        exact absurd htrue (by simp)
    | some dau =>
      rw [hdau] at htrue
      simp only [Option.bind_eq_bind, Option.some_bind] at htrue
      obtain ⟨fs, hdoc, hcase⟩ := jGetDefault_toJson doc _ _ _ hdau
      rcases hcase with ⟨-, hdflt⟩ | ⟨w1, hw1, hdau2⟩
      · subst hdflt
        exact absurd htrue (by simp [jGetDefault, jIterList, hasAnyLoop])
      · subst hdau2
        cases hcfg : jGetDefault (PV.toJson w1) "Configs" (JVal.arrJ []) with
        | none =>
            rw [hcfg] at htrue
            exact absurd htrue (by simp)
        | some cfgs =>
          rw [hcfg] at htrue
          simp only [Option.some_bind] at htrue
          obtain ⟨fs1, hw1d, hcase1⟩ := jGetDefault_toJson w1 _ _ _ hcfg
          rcases hcase1 with ⟨-, hdflt1⟩ | ⟨w2, hw2, hcfg2⟩
          · subst hdflt1
            exact absurd htrue (by simp [jIterList, hasAnyLoop])
          · subst hcfg2
            cases hit : jIterList (PV.toJson w2) with
            | none =>
                rw [hit] at htrue
                exact absurd htrue (by simp)
            | some items =>
              rw [hit] at htrue
              simp only [Option.some_bind] at htrue
              obtain ⟨c, hcmem, hct, c0, hc0, hc0t, hcont⟩ := hasAnyLoop_true items htrue
              cases w2 with
              | int n => exact absurd hit (by simp [PV.toJson, jIterList])
              | str s =>
                  simp only [PV.toJson, jIterList, Option.some_inj] at hit
                  subst hit
                  obtain ⟨ch, -, hceq⟩ := List.mem_map.mp hcmem
                  subst hceq
                  exact (strJ_c0_kill _ c0 hc0 hcont).elim
              | dict es2 =>
                  simp only [PV.toJson, jIterList, Option.some_inj] at hit
                  subst hit
                  obtain ⟨p, -, hceq⟩ := List.mem_map.mp hcmem
                  subst hceq
                  exact (strJ_c0_kill _ c0 hc0 hcont).elim
              | arr vs =>
                  simp only [PV.toJson, jIterList, Option.some_inj] at hit
                  subst hit
                  rw [jsonElems_eq_map] at hcmem
                  obtain ⟨v, hvmem, hceq⟩ := List.mem_map.mp hcmem
                  subst hceq
                  cases v with
                  | int n => exact absurd hc0 (by simp [PV.toJson, jIndex0])
                  | dict es2 => exact absurd hc0 (by simp [PV.toJson, jIndex0])
                  | str s =>
                      exact (strJ_c0_kill s c0 (by simpa [PV.toJson] using hc0) hcont).elim
                  | arr us =>
                      cases us with
                      | nil => exact absurd hc0 (by simp [PV.toJson, jsonElems, jIndex0])
                      | cons u us2 =>
                        have hc0' : c0 = PV.toJson u := by
                          simp only [PV.toJson, jsonElems, jIndex0, Option.some_inj] at hc0
                          exact hc0.symm
                        subst hc0'
                        have hsub_u : SubPV u w1 := by
                          rw [hw1d]
                          refine SubPV.dictStep "Configs" (PV.arr vs) u fs1
                            (pvLast_mem fs1 "Configs" _ hw2) ?_
                          refine SubPV.arrStep (PV.arr (u :: us2)) u vs hvmem ?_
                          exact SubPV.arrStep u u (u :: us2) (List.mem_cons_self _ _)
                            (SubPV.refl u)
                        have hsub_doc : SubPV u doc := by
                          rw [hdoc]
                          exact SubPV.dictStep "DisplayAnyUserSets" w1 u fs
                            (pvLast_mem fs "DisplayAnyUserSets" _ hw1) hsub_u
                        cases u with
                        | int n => exact absurd hcont (by simp [PV.toJson, jContains])
                        | str s =>
                            refine Or.inr ⟨PV.str s, hsub_doc, Or.inl ⟨s, rfl, ?_⟩⟩
                            simpa [PV.toJson, jContains] using hcont
                        | arr us3 =>
                            refine Or.inr ⟨PV.arr us3, hsub_doc, Or.inr ⟨us3, rfl, ?_⟩⟩
                            simp only [PV.toJson, jContains, Option.some_inj] at hcont
                            rw [jsonElems_eq_map, List.any_eq_true] at hcont
                            obtain ⟨jv, hjvmem, hjv⟩ := hcont
                            obtain ⟨y, hymem, hyeq⟩ := List.mem_map.mp hjvmem
                            subst hyeq
                            cases y with
                            | str t =>
                                simp only [PV.toJson, beq_iff_eq] at hjv
                                subst hjv
                                exact hymem
                            | int n => simp [PV.toJson] at hjv
                            | dict es4 => simp [PV.toJson] at hjv
                            | arr zs => simp [PV.toJson] at hjv
                        | dict es3 =>
                            simp only [PV.toJson, jContains, Option.some_inj] at hcont
                            rw [jsonFields_eq_map, List.any_eq_true] at hcont
                            obtain ⟨q', hq'mem, hq'⟩ := hcont
                            obtain ⟨q, hqmem, hqeq⟩ := List.mem_map.mp hq'mem
                            subst hqeq
                            simp only [beq_iff_eq] at hq'
                            obtain ⟨qk, qv⟩ := q
                            simp only at hq'
                            subst hq'
                            have hkey : (Elem.node 0 "key" (some "LinkDescription") []) ∈
                                dictChildren es3 :=
                              (toXml_mem_dictChildren es3 "LinkDescription" qv hqmem).2
                            have hdk : hasDirectKey (PV.toXml (PV.dict es3)) "LinkDescription"
                                = true := by
                              rw [hasDirectKey]
                              rw [List.any_eq_true]
                              refine ⟨Elem.node 0 "key" (some "LinkDescription") [], ?_, rfl⟩
                              simpa [PV.toXml, Elem.children] using hkey
                            have hmemx : PV.toXml (PV.dict es3) ∈ descendants (PV.toXml doc) := by
                              rw [hdoc, PV.toXml, descendants]
                              show PV.toXml (PV.dict es3) ∈
                                iterList (Elem.node 0 "dict" none (dictChildren fs)).children
                              rw [Elem.children]
                              refine mem_iterList_of_mem (dictChildren fs) (PV.toXml w1)
                                (toXml_mem_dictChildren fs "DisplayAnyUserSets" w1
                                  (pvLast_mem fs "DisplayAnyUserSets" _ hw1)).1 _ ?_
                              exact toXml_mem_iter_of_sub _ _ hsub_u
                            have hfin : PV.toXml (PV.dict es3) ∈
                                findall_linkdesc (PV.toXml doc) := by
                              rw [findall_linkdesc]
                              refine List.mem_filter.mpr ⟨hmemx, ?_⟩
                              rw [Bool.and_eq_true]
                              exact ⟨by simp [PV.toXml, Elem.tag], hdk⟩
                            exact Or.inl (List.ne_nil_of_mem hfin)

/-- Witness for the amended C7 theorem: both directions applied — a
pre-check miss skips `doc1`'s tree untouched, and `c7good`'s pre-check
hit lands in the disjunction. -/
theorem c7_amended_witness :
    fixDocument docOK jsonOK = some Outcome.skipped ∧
    (findall_linkdesc (PV.toXml c7good) ≠ [] ∨ weirdHit c7good) :=
  ⟨c7_amended.1 docOK jsonOK rfl, c7_amended.2 c7good rfl⟩

/-! ## C2 — idempotence of the fix pass (confirmed)

The pass is modelled as a write log replayed over the original tree:
every state the loop reaches is `applyWrites r₀ ws` for a `ValidLog`
`ws`.  The searched key names (`LinkDescription`, `PixelEncoding`,
`Range`, `UUID`) are never written (only `"0"`/`"1"` are), so every
lookup is stable across the pass; a written element's unique
predecessor pins its role, so `PixelEncoding`-paired elements only ever
receive `"0"` and `Range`-paired ones only `"1"`, and no guard can come
back to life in a second pass. -/

theorem applyWrites_nil (e : Elem) : applyWrites e [] = e := rfl

theorem applyWrites_cons (e : Elem) (w : Nat × String) (ws : List (Nat × String)) :
    applyWrites e (w :: ws) = applyWrites (setText e w.1 w.2) ws := rfl

theorem applyWrites_append (e : Elem) (ws ws' : List (Nat × String)) :
    applyWrites e (ws ++ ws') = applyWrites (applyWrites e ws) ws' := by
  rw [applyWrites, applyWrites, applyWrites, List.foldl_append]

theorem applyWrites_eid (e : Elem) (ws : List (Nat × String)) :
    (applyWrites e ws).eid = e.eid := by
  induction ws generalizing e with
  | nil => rfl
  | cons w ws ih => rw [applyWrites_cons, ih, setText_eid]

theorem applyWrites_tag (e : Elem) (ws : List (Nat × String)) :
    (applyWrites e ws).tag = e.tag := by
  induction ws generalizing e with
  | nil => rfl
  | cons w ws ih => rw [applyWrites_cons, ih, setText_tag]

theorem textFold_nil (i : Nat) (t : Option String) : textFold [] i t = t := rfl

theorem textFold_cons (w : Nat × String) (ws : List (Nat × String)) (i : Nat)
    (t : Option String) :
    textFold (w :: ws) i t = textFold ws i (if w.1 = i then some w.2 else t) := rfl

theorem textFold_append (ws ws' : List (Nat × String)) (i : Nat) (t : Option String) :
    textFold (ws ++ ws') i t = textFold ws' i (textFold ws i t) := by
  rw [textFold, textFold, textFold, List.foldl_append]

theorem applyWrites_text (e : Elem) (ws : List (Nat × String)) :
    (applyWrites e ws).text = textFold ws e.eid e.text := by
  induction ws generalizing e with
  | nil => rfl
  | cons w ws ih =>
      rw [applyWrites_cons, ih, setText_eid, textFold_cons, setText_text]
      by_cases h : e.eid = w.1
      · rw [if_pos h, if_pos h.symm]
      · rw [if_neg h, if_neg (fun hh => h hh.symm)]

theorem applyWrites_children (e : Elem) (ws : List (Nat × String)) :
    (applyWrites e ws).children = e.children.map (fun c => applyWrites c ws) := by
  induction ws generalizing e with
  | nil => exact (List.map_id e.children).symm
  | cons w ws ih =>
      rw [applyWrites_cons, ih, setText_children, setTextList_eq_map, List.map_map]
      rfl

theorem iter_applyWrites (e : Elem) (ws : List (Nat × String)) :
    (applyWrites e ws).iter = e.iter.map (fun x => applyWrites x ws) := by
  induction ws generalizing e with
  | nil => exact (List.map_id e.iter).symm
  | cons w ws ih =>
      rw [applyWrites_cons, ih, iter_setText, List.map_map]
      rfl

theorem iterList_map_applyWrites (l : List Elem) (ws : List (Nat × String)) :
    iterList (l.map (fun c => applyWrites c ws)) = (iterList l).map (fun x => applyWrites x ws) := by
  induction l with
  | nil => rfl
  | cons c rest ih =>
      rw [List.map_cons, iterList, iterList, List.map_append, ih, iter_applyWrites]

theorem textFold_cases (ws : List (Nat × String)) (i : Nat) :
    ∀ t, textFold ws i t = t ∨ ∃ w ∈ ws, w.1 = i ∧ textFold ws i t = some w.2 := by
  induction ws with
  | nil => intro t; exact Or.inl rfl
  | cons w ws ih =>
      intro t
      rw [textFold_cons]
      by_cases h : w.1 = i
      · rw [if_pos h]
        rcases ih (some w.2) with h1 | ⟨w', hw', hi', ht'⟩
        · exact Or.inr ⟨w, by simp, h, h1⟩
        · exact Or.inr ⟨w', by simp [hw'], hi', ht'⟩
      · rw [if_neg h]
        rcases ih t with h1 | ⟨w', hw', hi', ht'⟩
        · exact Or.inl h1
        · exact Or.inr ⟨w', by simp [hw'], hi', ht'⟩

theorem validLog_val (r₀ : Elem) (ws : List (Nat × String)) (hv : ValidLog r₀ ws)
    (w : Nat × String) (hw : w ∈ ws) : w.2 = "0" ∨ w.2 = "1" := by
  rcases (hv w hw).1 with ⟨h, -⟩ | ⟨h, -⟩
  · exact Or.inl h
  · exact Or.inr h

theorem validLog_append_left (r₀ : Elem) (ws ws' : List (Nat × String))
    (hv : ValidLog r₀ (ws ++ ws')) : ValidLog r₀ ws :=
  fun w hw => hv w (List.mem_append_left _ hw)

theorem validLog_append_right (r₀ : Elem) (ws ws' : List (Nat × String))
    (hv : ValidLog r₀ (ws ++ ws')) : ValidLog r₀ ws' :=
  fun w hw => hv w (List.mem_append_right _ hw)

theorem keyOf_stable (r₀ : Elem) (ws : List (Nat × String)) (hv : ValidLog r₀ ws)
    (e : Elem) (he : e ∈ r₀.iter) (k : String) (hk0 : k ≠ "0") (hk1 : k ≠ "1") :
    (keyOf (applyWrites e ws) = some k) ↔ (keyOf e = some k) := by
  rw [keyOf, keyOf, applyWrites_tag]
  by_cases htag : e.tag = "key"
  · rw [if_pos htag, if_pos htag, applyWrites_text]
    rcases textFold_cases ws e.eid e.text with h1 | ⟨w, hw, hi, ht⟩
    · rw [h1]
    · rw [ht]
      constructor
      · intro hh
        rcases validLog_val r₀ ws hv w hw with h0 | h0 <;>
          · rw [h0] at hh
            injection hh with hh2
            first
              | exact absurd hh2.symm hk0
              | exact absurd hh2.symm hk1
      · intro hh
        have h01 := (hv w hw).2 e he hi.symm
        rcases h01 with h0 | h0 <;>
          · rw [h0] at hh
            injection hh with hh2
            first
              | exact absurd hh2.symm hk0
              | exact absurd hh2.symm hk1
  · rw [if_neg htag, if_neg htag]

theorem gdvAux_map (k : String) (f : Elem → Elem) :
    ∀ (l : List Elem) (p q : Option String),
      (p = some k ↔ q = some k) →
      (∀ e ∈ l, (keyOf (f e) = some k ↔ keyOf e = some k)) →
      gdvAux k q (l.map f) = (gdvAux k p l).map f := by
  intro l
  induction l with
  | nil =>
      intro p q hpq hl
      rfl
  | cons x rest ih =>
      intro p q hpq hl
      rw [List.map_cons, gdvAux, gdvAux]
      by_cases hp : p = some k
      · rw [if_pos hp, if_pos (hpq.mp hp)]
        rfl
      · rw [if_neg hp, if_neg (fun hq => hp (hpq.mpr hq))]
        exact ih (keyOf x) (keyOf (f x)) (hl x (by simp)).symm (fun e he => hl e (by simp [he]))

theorem gdv_stable (r₀ : Elem) (ws : List (Nat × String)) (hv : ValidLog r₀ ws)
    (d : Elem) (hd : d ∈ r₀.iter) (k : String) (hk0 : k ≠ "0") (hk1 : k ≠ "1") :
    get_dict_value (applyWrites d ws) k =
      (get_dict_value d k).map (fun x => applyWrites x ws) := by
  rw [get_dict_value, get_dict_value, iter_applyWrites]
  refine gdvAux_map k _ d.iter none none (by simp) ?_
  intro e he
  exact keyOf_stable r₀ ws hv e (mem_iter_trans e d r₀ hd he) k hk0 hk1

theorem gdvAux_mem (k : String) :
    ∀ (l : List Elem) (p : Option String) (e : Elem), gdvAux k p l = some e → e ∈ l := by
  intro l
  induction l with
  | nil =>
      intro p e h
      exact absurd h (by simp [gdvAux])
  | cons x rest ih =>
      intro p e h
      rw [gdvAux] at h
      by_cases hp : p = some k
      · rw [if_pos hp] at h
        injection h with h2
        simp [h2.symm]
      · rw [if_neg hp] at h
        exact List.mem_cons_of_mem _ (ih _ e h)

theorem gdv_mem (d : Elem) (k : String) (e : Elem) (h : get_dict_value d k = some e) :
    e ∈ d.iter :=
  gdvAux_mem k d.iter none e h

theorem children_mem_iter (e c : Elem) (hc : c ∈ e.children) : c ∈ e.iter := by
  cases e with
  | node i t tx cs =>
      rw [Elem.iter]
      exact List.mem_cons_of_mem _
        (mem_iterList_of_mem cs c hc c (mem_iter_self c))

theorem keyChild_stable (r₀ : Elem) (ws : List (Nat × String)) (hv : ValidLog r₀ ws)
    (c : Elem) (hc : c ∈ r₀.iter) :
    ((applyWrites c ws).tag == "key" && (applyWrites c ws).text == some "LinkDescription") =
      (c.tag == "key" && c.text == some "LinkDescription") := by
  have hiff := keyOf_stable r₀ ws hv c hc "LinkDescription" (by decide) (by decide)
  rw [keyOf, keyOf, applyWrites_tag] at hiff
  rw [applyWrites_tag]
  by_cases htag : c.tag = "key"
  · rw [if_pos htag, if_pos htag] at hiff
    rw [Bool.eq_iff_iff]
    simp only [Bool.and_eq_true, beq_iff_eq]
    constructor
    · intro hh
      exact ⟨hh.1, hiff.mp hh.2⟩
    · intro hh
      exact ⟨hh.1, hiff.mpr hh.2⟩
  · rw [Bool.eq_iff_iff]
    simp only [Bool.and_eq_true, beq_iff_eq]
    constructor
    · intro hh
      exact absurd hh.1 htag
    · intro hh
      exact absurd hh.1 htag

theorem any_pred_congr (p q : Elem → Bool) :
    ∀ l : List Elem, (∀ e ∈ l, p e = q e) → l.any p = l.any q := by
  intro l
  induction l with
  | nil =>
      intro h
      rfl
  | cons x rest ih =>
      intro h
      rw [List.any_cons, List.any_cons, h x (by simp), ih (fun e he => h e (by simp [he]))]

theorem hasDirectKey_stable (r₀ : Elem) (ws : List (Nat × String)) (hv : ValidLog r₀ ws)
    (e : Elem) (he : e ∈ r₀.iter) :
    hasDirectKey (applyWrites e ws) "LinkDescription" = hasDirectKey e "LinkDescription" := by
  rw [hasDirectKey, hasDirectKey, applyWrites_children, List.any_map]
  refine any_pred_congr _ _ e.children ?_
  intro c hc
  exact keyChild_stable r₀ ws hv c (mem_iter_trans c e r₀ he (children_mem_iter e c hc))

theorem find?_map_pred (f : Elem → Elem) (p q : Elem → Bool) :
    ∀ l : List Elem, (∀ e ∈ l, p (f e) = q e) →
      (l.map f).find? p = (l.find? q).map f := by
  intro l
  induction l with
  | nil =>
      intro h
      rfl
  | cons x rest ih =>
      intro h
      rw [List.map_cons, List.find?_cons, List.find?_cons]
      rw [h x (by simp)]
      cases hq : q x with
      | true => rfl
      | false => exact ih (fun e he => h e (by simp [he]))

theorem findById_stable (r₀ : Elem) (ws : List (Nat × String)) (i : Nat) :
    findById (applyWrites r₀ ws) i = (findById r₀ i).map (fun x => applyWrites x ws) := by
  rw [findById, findById, iter_applyWrites]
  refine find?_map_pred _ _ _ r₀.iter ?_
  intro e he
  rw [applyWrites_eid]

theorem filter_map_pred (f : Elem → Elem) (p q : Elem → Bool) :
    ∀ l : List Elem, (∀ e ∈ l, p (f e) = q e) →
      (l.map f).filter p = (l.filter q).map f := by
  intro l
  induction l with
  | nil =>
      intro h
      rfl
  | cons x rest ih =>
      intro h
      rw [List.map_cons, List.filter_cons, List.filter_cons, h x (by simp)]
      by_cases hq : q x = true
      · rw [if_pos hq, if_pos hq, List.map_cons, ih (fun e he => h e (by simp [he]))]
      · rw [if_neg hq, if_neg hq]
        exact ih (fun e he => h e (by simp [he]))
theorem mem_descendants_iter (r : Elem) (x : Elem) (hx : x ∈ descendants r) : x ∈ r.iter := by
  cases r with
  | node i t tx cs =>
      rw [descendants, Elem.children] at hx
      rw [Elem.iter]
      exact List.mem_cons_of_mem _ hx

theorem findall_stable (r₀ : Elem) (ws : List (Nat × String)) (hv : ValidLog r₀ ws) :
    findall_linkdesc (applyWrites r₀ ws) =
      (findall_linkdesc r₀).map (fun x => applyWrites x ws) := by
  rw [findall_linkdesc, findall_linkdesc]
  have hdesc : descendants (applyWrites r₀ ws) =
      (descendants r₀).map (fun x => applyWrites x ws) := by
    rw [descendants, descendants, applyWrites_children, iterList_map_applyWrites]
  rw [hdesc]
  refine filter_map_pred _ _ _ (descendants r₀) ?_
  intro e he
  have hei : e ∈ r₀.iter := mem_descendants_iter r₀ e he
  rw [applyWrites_tag, hasDirectKey_stable r₀ ws hv e hei]

theorem configIds_stable (r₀ : Elem) (ws : List (Nat × String)) (hv : ValidLog r₀ ws) :
    configIds (applyWrites r₀ ws) = configIds r₀ := by
  rw [configIds, configIds, findall_stable r₀ ws hv, List.map_map]
  refine List.map_congr_left ?_
  intro e he
  exact applyWrites_eid e ws

theorem gdvAux_adj (k : String) :
    ∀ (l : List Elem) (p : Option String) (e : Elem),
      gdvAux k p l = some e →
      (p = some k ∧ ∃ rest, l = e :: rest) ∨
      ∃ u pk v, l = u ++ pk :: e :: v ∧ pk.tag = "key" ∧ pk.text = some k := by
  intro l
  induction l with
  | nil =>
      intro p e h
      exact absurd h (by simp [gdvAux])
  | cons x rest ih =>
      intro p e h
      rw [gdvAux] at h
      by_cases hp : p = some k
      · rw [if_pos hp] at h
        injection h with h2
        exact Or.inl ⟨hp, rest, by rw [h2]⟩
      · rw [if_neg hp] at h
        rcases ih (keyOf x) e h with ⟨hk, rest', hrest⟩ | ⟨u, pk, v, hdec, htag, htxt⟩
        · rw [keyOf] at hk
          by_cases htag : x.tag = "key"
          · rw [if_pos htag] at hk
            exact Or.inr ⟨[], x, rest', by rw [hrest]; rfl, htag, hk⟩
          · rw [if_neg htag] at hk
            exact absurd hk (by simp)
        · exact Or.inr ⟨x :: u, pk, v, by rw [hdec]; rfl, htag, htxt⟩

theorem gdv_adj (d : Elem) (k : String) (e : Elem)
    (h : get_dict_value d k = some e) :
    ∃ u pk v, d.iter = u ++ pk :: e :: v ∧ pk.tag = "key" ∧ pk.text = some k := by
  rcases gdvAux_adj k d.iter none e h with ⟨hk, -⟩ | hr
  · exact absurd hk (by simp)
  · exact hr

theorem iter_infix_iterList (c : Elem) :
    ∀ l : List Elem, c ∈ l → c.iter <:+: iterList l := by
  intro l
  induction l with
  | nil =>
      intro h
      cases h
  | cons x rest ih =>
      intro h
      rcases List.mem_cons.mp h with heq | hmem
      · subst heq
        rw [iterList]
        exact (List.prefix_append _ _).isInfix
      · rw [iterList]
        exact (ih hmem).trans (List.suffix_append _ _).isInfix

theorem subIter_isInfixOf_iter (d : Elem) :
    ∀ r : Elem, d ∈ r.iter → d.iter <:+: r.iter := by
  refine Elem.ind ?_
  intro i t tx cs ih hd
  rw [Elem.iter] at hd ⊢
  rcases List.mem_cons.mp hd with heq | hmem
  · subst heq
    exact List.infix_refl _
  · obtain ⟨c, hc, hdc⟩ := mem_iterList_elim cs d hmem
    exact ((ih c hc hdc).trans (iter_infix_iterList c cs hc)).trans
      (List.suffix_cons _ _).isInfix

theorem adj_of_infix (L l : List Elem) (p e : Elem) (hinf : l <:+: L)
    (h : Adj l p e) : Adj L p e := by
  obtain ⟨u, v, hdec⟩ := h
  obtain ⟨s, t, hst⟩ := hinf
  exact ⟨s ++ u, v ++ t, by rw [← hst, hdec]; simp⟩

theorem adj_unique (L : List Elem) (hnd : (L.map Elem.eid).Nodup)
    (p e p' e' : Elem) (h1 : Adj L p e) (h2 : Adj L p' e') (heq : e.eid = e'.eid) :
    p = p' := by
  obtain ⟨u, v, hdec⟩ := h1
  obtain ⟨u', v', hdec'⟩ := h2
  have hg1 : L.get? (u.length + 1) = some e := by
    rw [hdec, List.get?_append_right (by omega)]
    simp
  have hg2 : L.get? (u'.length + 1) = some e' := by
    rw [hdec', List.get?_append_right (by omega)]
    simp
  have hm1 : (L.map Elem.eid).get? (u.length + 1) = some e.eid := by
    rw [List.get?_map, hg1]
    rfl
  have hm2 : (L.map Elem.eid).get? (u'.length + 1) = some e'.eid := by
    rw [List.get?_map, hg2]
    rfl
  have hlen : u.length + 1 < (L.map Elem.eid).length := by
    rw [List.length_map, hdec]
    simp only [List.length_append, List.length_cons]
    omega
  have hieq : u.length + 1 = u'.length + 1 := by
    refine List.get?_inj hlen hnd ?_
    rw [hm1, hm2, heq]
  have hul : u.length = u'.length := by omega

  have := hdec.symm.trans hdec'
  obtain ⟨-, htail⟩ := List.append_inj this hul
  injection htail with hp htail2

theorem role_disjoint (r₀ : Elem) (hnd : (r₀.iter.map Elem.eid).Nodup) (i : Nat)
    (h0 : KeyPred r₀ "PixelEncoding" i) (h1 : KeyPred r₀ "Range" i) : False := by
  obtain ⟨p, e, hadj, hei, htag, htxt⟩ := h0
  obtain ⟨p', e', hadj', hei', htag', htxt'⟩ := h1
  have hpe : p = p' := adj_unique r₀.iter hnd p e p' e' hadj hadj' (by rw [hei, hei'])
  rw [hpe, htxt'] at htxt
  exact absurd htxt (by simp)

theorem keyPred_of_gdv (r₀ d : Elem) (hd : d ∈ r₀.iter) (k : String) (e : Elem)
    (h : get_dict_value d k = some e) : KeyPred r₀ k e.eid := by
  obtain ⟨u, pk, v, hdec, htag, htxt⟩ := gdv_adj d k e h
  refine ⟨pk, e, ?_, rfl, htag, htxt⟩
  exact adj_of_infix r₀.iter d.iter pk e (subIter_isInfixOf_iter d r₀ hd) ⟨u, v, hdec⟩

theorem textFold_all_eq (v : String) (i : Nat) :
    ∀ (ws : List (Nat × String)) (t : Option String),
      (∀ w ∈ ws, w.1 = i → w.2 = v) →
      textFold ws i t = t ∨ textFold ws i t = some v := by
  intro ws
  induction ws with
  | nil =>
      intro t h
      exact Or.inl rfl
  | cons w ws ih =>
      intro t h
      rw [textFold_cons]
      by_cases hw : w.1 = i
      · rw [if_pos hw, h w (by simp) hw]
        rcases ih (some v) (fun w' hw' => h w' (by simp [hw'])) with h1 | h1
        · exact Or.inr h1
        · exact Or.inr h1
      · rw [if_neg hw]
        exact ih t (fun w' hw' => h w' (by simp [hw']))

theorem pe_writes_all_zero (r₀ : Elem) (hnd : (r₀.iter.map Elem.eid).Nodup)
    (ws : List (Nat × String)) (hv : ValidLog r₀ ws) (i : Nat)
    (hpe : KeyPred r₀ "PixelEncoding" i) :
    ∀ w ∈ ws, w.1 = i → w.2 = "0" := by
  intro w hw hwi
  rcases (hv w hw).1 with ⟨h0, -⟩ | ⟨-, hr⟩
  · exact h0
  · rw [hwi] at hr
    exact absurd hpe (fun hp => role_disjoint r₀ hnd i hp hr)

theorem rg_writes_all_one (r₀ : Elem) (hnd : (r₀.iter.map Elem.eid).Nodup)
    (ws : List (Nat × String)) (hv : ValidLog r₀ ws) (i : Nat)
    (hrg : KeyPred r₀ "Range" i) :
    ∀ w ∈ ws, w.1 = i → w.2 = "1" := by
  intro w hw hwi
  rcases (hv w hw).1 with ⟨-, hp⟩ | ⟨h1, -⟩
  · rw [hwi] at hp
    exact absurd hrg (fun hr => role_disjoint r₀ hnd i hp hr)
  · exact h1

theorem nodup_eid_inj (L : List Elem) (hnd : (L.map Elem.eid).Nodup)
    (e e' : Elem) (he : e ∈ L) (he' : e' ∈ L) (heq : e.eid = e'.eid) : e = e' :=
  List.inj_on_of_nodup_map hnd he he' heq

theorem origText01_of_guard (r₀ : Elem) (hnd : (r₀.iter.map Elem.eid).Nodup)
    (ws : List (Nat × String)) (hv : ValidLog r₀ ws)
    (e₀ : Elem) (he₀ : e₀ ∈ r₀.iter) (v : String) (hv01 : v = "0" ∨ v = "1")
    (hval : textFold ws e₀.eid e₀.text = some v) :
    origText01 r₀ e₀.eid := by
  rcases textFold_cases ws e₀.eid e₀.text with hsame | ⟨w, hw, hwi, -⟩
  · intro e he hei
    have : e = e₀ := nodup_eid_inj r₀.iter hnd e e₀ he he₀ hei
    subst this
    rw [← hsame, hval]
    rcases hv01 with h | h
    · exact Or.inl (by rw [h])
    · exact Or.inr (by rw [h])
  · have := (hv w hw).2
    rw [hwi] at this
    exact this

theorem isEmpty_map (l : List Elem) (f : Elem → Elem) : (l.map f).isEmpty = l.isEmpty := by
  cases l <;> rfl

theorem findById_mem (r : Elem) (i : Nat) (c : Elem) (h : findById r i = some c) :
    c ∈ r.iter :=
  List.mem_of_find?_eq_some h

theorem fixStep_noFix (r₀ : Elem) (ws : List (Nat × String)) (hv : ValidLog r₀ ws)
    (i : Nat) (cfg₀ : Elem) (hfind : findById r₀ i = some cfg₀)
    (hcase :
      get_dict_value cfg₀ "UUID" = none ∨
      ∃ u₀ ld₀ pe₀ rg₀,
        get_dict_value cfg₀ "UUID" = some u₀ ∧
        get_dict_value cfg₀ "LinkDescription" = some ld₀ ∧
        (ld₀.children.isEmpty || ld₀.tag != "dict") = false ∧
        get_dict_value ld₀ "PixelEncoding" = some pe₀ ∧
        get_dict_value ld₀ "Range" = some rg₀ ∧
        (textFold ws pe₀.eid pe₀.text ≠ some "1" ∨
          textFold ws rg₀.eid rg₀.text ≠ some "0")) :
    fixStep (applyWrites r₀ ws) i = some (applyWrites r₀ ws, 0) := by
  have hcfgmem : cfg₀ ∈ r₀.iter := findById_mem r₀ i cfg₀ hfind
  rw [fixStep, findById_stable r₀ ws i, hfind]
  simp only [Option.map_some', Option.bind_eq_bind, Option.some_bind]
  rw [gdv_stable r₀ ws hv cfg₀ hcfgmem "UUID" (by decide) (by decide)]
  rcases hcase with huuid | ⟨u₀, ld₀, pe₀, rg₀, huuid, hld, hassert, hpe, hrg, hguard⟩
  · rw [huuid]
    rfl
  · rw [huuid]
    simp only [Option.map_some']
    have hldmem : ld₀ ∈ r₀.iter :=
      mem_iter_trans ld₀ cfg₀ r₀ hcfgmem (gdv_mem cfg₀ _ ld₀ hld)
    have hfc : fix_config (applyWrites r₀ ws) (applyWrites cfg₀ ws) =
        some (false, applyWrites r₀ ws) := by
      rw [fix_config, gdv_stable r₀ ws hv cfg₀ hcfgmem "LinkDescription" (by decide) (by decide),
        hld]
      simp only [Option.map_some', Option.bind_eq_bind, Option.some_bind]
      have hassert' : ((applyWrites ld₀ ws).children.isEmpty ||
          (applyWrites ld₀ ws).tag != "dict") = false := by
        rw [applyWrites_children, isEmpty_map, applyWrites_tag]
        exact hassert
      rw [hassert']
      simp only [Bool.false_eq_true, if_false]
      rw [gdv_stable r₀ ws hv ld₀ hldmem "PixelEncoding" (by decide) (by decide), hpe,
        gdv_stable r₀ ws hv ld₀ hldmem "Range" (by decide) (by decide), hrg]
      simp only [Option.map_some', Option.some_bind]
      have hguard' : ((applyWrites pe₀ ws).text != some "1" ||
          (applyWrites rg₀ ws).text != some "0") = true := by
        rw [applyWrites_text, applyWrites_text, Bool.or_eq_true, bne_iff_ne, bne_iff_ne]
        exact hguard
      rw [hguard']
      simp only [if_true]
    rw [hfc]
    rfl

theorem fixStep_analysis (r₀ : Elem) (ws : List (Nat × String)) (hv : ValidLog r₀ ws)
    (i : Nat) (out : Elem × Nat)
    (h : fixStep (applyWrites r₀ ws) i = some out) :
    ∃ cfg₀, findById r₀ i = some cfg₀ ∧ cfg₀ ∈ r₀.iter ∧
      ((get_dict_value cfg₀ "UUID" = none ∧ out = (applyWrites r₀ ws, 0)) ∨
       ∃ u₀ ld₀ pe₀ rg₀,
         get_dict_value cfg₀ "UUID" = some u₀ ∧
         get_dict_value cfg₀ "LinkDescription" = some ld₀ ∧
         (ld₀.children.isEmpty || ld₀.tag != "dict") = false ∧
         get_dict_value ld₀ "PixelEncoding" = some pe₀ ∧
         get_dict_value ld₀ "Range" = some rg₀ ∧
         pe₀ ∈ r₀.iter ∧ rg₀ ∈ r₀.iter ∧
         KeyPred r₀ "PixelEncoding" pe₀.eid ∧ KeyPred r₀ "Range" rg₀.eid ∧
         (((textFold ws pe₀.eid pe₀.text ≠ some "1" ∨
              textFold ws rg₀.eid rg₀.text ≠ some "0") ∧
             out = (applyWrites r₀ ws, 0)) ∨
          (textFold ws pe₀.eid pe₀.text = some "1" ∧
             textFold ws rg₀.eid rg₀.text = some "0" ∧
             out = (applyWrites r₀ (ws ++ [(pe₀.eid, "0"), (rg₀.eid, "1")]), 1)))) := by
  rw [fixStep, findById_stable r₀ ws i] at h
  cases hfind : findById r₀ i with
  | none =>
      rw [hfind] at h
      exact absurd h (by simp)
  | some cfg₀ =>
    rw [hfind] at h
    simp only [Option.map_some', Option.bind_eq_bind, Option.some_bind] at h
    have hcfgmem : cfg₀ ∈ r₀.iter := findById_mem r₀ i cfg₀ hfind
    refine ⟨cfg₀, rfl, hcfgmem, ?_⟩
    rw [gdv_stable r₀ ws hv cfg₀ hcfgmem "UUID" (by decide) (by decide)] at h
    cases huuid : get_dict_value cfg₀ "UUID" with
    | none =>
        rw [huuid] at h
        have h2 : some ((applyWrites r₀ ws, 0) : Elem × Nat) = some out := h
        exact Or.inl ⟨rfl, (Option.some_inj.mp h2).symm⟩
    | some u₀ =>
      rw [huuid] at h
      have h2 : (fix_config (applyWrites r₀ ws) (applyWrites cfg₀ ws)).bind
          (fun fr => some (fr.2, if fr.1 then 1 else 0)) = some out := h
      rw [fix_config,
        gdv_stable r₀ ws hv cfg₀ hcfgmem "LinkDescription" (by decide) (by decide)] at h2
      cases hld : get_dict_value cfg₀ "LinkDescription" with
      | none =>
          rw [hld] at h2
          exact absurd h2 (by simp)
      | some ld₀ =>
        rw [hld] at h2
        simp only [Option.map_some', Option.bind_eq_bind, Option.some_bind] at h2
        have hldmem : ld₀ ∈ r₀.iter :=
          mem_iter_trans ld₀ cfg₀ r₀ hcfgmem (gdv_mem cfg₀ _ ld₀ hld)
        have hceq : ((applyWrites ld₀ ws).children.isEmpty ||
            (applyWrites ld₀ ws).tag != "dict") =
            (ld₀.children.isEmpty || ld₀.tag != "dict") := by
          rw [applyWrites_children, isEmpty_map, applyWrites_tag]
        rw [hceq] at h2
        by_cases hassert : (ld₀.children.isEmpty || ld₀.tag != "dict") = true
        · rw [if_pos hassert] at h2
          exact absurd h2 (by simp)
        · have hassertF := Bool.not_eq_true _ ▸ hassert
          rw [if_neg hassert] at h2
          rw [gdv_stable r₀ ws hv ld₀ hldmem "PixelEncoding" (by decide) (by decide)] at h2
          cases hpe : get_dict_value ld₀ "PixelEncoding" with
          | none =>
              rw [hpe] at h2
              exact absurd h2 (by simp)
          | some pe₀ =>
            rw [hpe] at h2
            simp only [Option.map_some', Option.some_bind] at h2
            rw [gdv_stable r₀ ws hv ld₀ hldmem "Range" (by decide) (by decide)] at h2
            cases hrg : get_dict_value ld₀ "Range" with
            | none =>
                rw [hrg] at h2
                exact absurd h2 (by simp)
            | some rg₀ =>
              rw [hrg] at h2
              simp only [Option.map_some', Option.some_bind] at h2
              have hpemem : pe₀ ∈ r₀.iter :=
                mem_iter_trans pe₀ ld₀ r₀ hldmem (gdv_mem ld₀ _ pe₀ hpe)
              have hrgmem : rg₀ ∈ r₀.iter :=
                mem_iter_trans rg₀ ld₀ r₀ hldmem (gdv_mem ld₀ _ rg₀ hrg)
              have hkpe : KeyPred r₀ "PixelEncoding" pe₀.eid :=
                keyPred_of_gdv r₀ ld₀ hldmem "PixelEncoding" pe₀ hpe
              have hkrg : KeyPred r₀ "Range" rg₀.eid :=
                keyPred_of_gdv r₀ ld₀ hldmem "Range" rg₀ hrg
              have hgeq : ((applyWrites pe₀ ws).text != some "1" ||
                  (applyWrites rg₀ ws).text != some "0") =
                  ((textFold ws pe₀.eid pe₀.text != some "1") ||
                   (textFold ws rg₀.eid rg₀.text != some "0")) := by
                rw [applyWrites_text, applyWrites_text]
              rw [hgeq] at h2
              refine Or.inr ⟨u₀, ld₀, pe₀, rg₀, rfl, rfl, ?_, hpe, hrg, hpemem, hrgmem,
                hkpe, hkrg, ?_⟩
              · rw [Bool.not_eq_true] at hassert
                exact hassert
              by_cases hg : ((textFold ws pe₀.eid pe₀.text != some "1") ||
                  (textFold ws rg₀.eid rg₀.text != some "0")) = true
              · rw [if_pos hg] at h2
                simp only [Option.some_bind, Option.some_inj] at h2
                refine Or.inl ⟨?_, ?_⟩
                · rw [Bool.or_eq_true, bne_iff_ne, bne_iff_ne] at hg
                  exact hg
                · exact h2.symm
              · rw [if_neg hg] at h2
                simp only [Option.some_bind, Option.some_inj] at h2
                rw [Bool.or_eq_true] at hg
                push_neg at hg
                obtain ⟨hg1, hg2⟩ := hg
                simp only [bne_iff_ne, ne_eq, not_not] at hg1 hg2
                refine Or.inr ⟨hg1, hg2, ?_⟩
                rw [← h2, applyWrites_eid, applyWrites_eid, applyWrites_append]
                show (setText (setText (applyWrites r₀ ws) pe₀.eid "0") rg₀.eid "1",
                    if True then 1 else 0) =
                  (setText (setText (applyWrites r₀ ws) pe₀.eid "0") rg₀.eid "1", 1)
                simp
  

theorem fixLoop_noFix (s : Elem) :
    ∀ L : List Nat, (∀ i ∈ L, fixStep s i = some (s, 0)) → fixLoop s L = some (s, 0) := by
  intro L
  induction L with
  | nil =>
      intro h
      rfl
  | cons i L ih =>
      intro h
      rw [fixLoop, h i (by simp), Option.bind_eq_bind, Option.some_bind,
        ih (fun j hj => h j (by simp [hj])), Option.some_bind]
      rfl

theorem validLog_suffix_of (r₀ : Elem) (a b : List (Nat × String))
    (hv : ValidLog r₀ (a ++ b)) : ValidLog r₀ b :=
  validLog_append_right r₀ a b hv

theorem pass1_loop (r₀ : Elem) (hnd : (r₀.iter.map Elem.eid).Nodup) :
    ∀ (L : List Nat) (ws : List (Nat × String)) (out : Elem × Nat),
      ValidLog r₀ ws →
      fixLoop (applyWrites r₀ ws) L = some out →
      ∃ ws₂, out.1 = applyWrites r₀ (ws ++ ws₂) ∧ ValidLog r₀ (ws ++ ws₂) ∧
        ∀ ws₃, ValidLog r₀ (ws ++ (ws₂ ++ ws₃)) →
          ∀ i ∈ L, fixStep (applyWrites r₀ (ws ++ (ws₂ ++ ws₃))) i =
            some (applyWrites r₀ (ws ++ (ws₂ ++ ws₃)), 0) := by
  intro L
  induction L with
  | nil =>
      intro ws out hv h
      have h2 : some ((applyWrites r₀ ws, 0) : Elem × Nat) = some out := h
      refine ⟨[], ?_, by simpa using hv, ?_⟩
      · rw [← Option.some_inj.mp h2, List.append_nil]
      · intro ws₃ hv3 i hi
        cases hi
  | cons i L ih =>
      intro ws out hv h
      rw [fixLoop] at h
      cases hstep : fixStep (applyWrites r₀ ws) i with
      | none =>
          rw [hstep] at h
          exact absurd h (by simp)
      | some rc =>
        rw [hstep] at h
        simp only [Option.bind_eq_bind, Option.some_bind] at h
        cases hrest : fixLoop rc.1 L with
        | none =>
            rw [hrest] at h
            exact absurd h (by simp)
        | some rest =>
          rw [hrest] at h
          simp only [Option.some_bind, Option.some_inj] at h
          have hout : out.1 = rest.1 := by rw [← h]
          obtain ⟨cfg₀, hfind, hcfgmem, hcase⟩ := fixStep_analysis r₀ ws hv i rc hstep
          rcases hcase with ⟨huuid, hrc⟩ | ⟨u₀, ld₀, pe₀, rg₀, huuid, hld, hassert, hpe, hrg,
              hpemem, hrgmem, hkpe, hkrg, hgcase⟩
          · -- the step skipped this config (no UUID): state unchanged
            have hrest' : fixLoop (applyWrites r₀ ws) L = some rest := by
              rw [← hrest, hrc]
            obtain ⟨ws₂, hout1, hv2, hdead⟩ := ih ws rest hv hrest'
            refine ⟨ws₂, by rw [hout, hout1], hv2, ?_⟩
            intro ws₃ hv3 j hj
            rcases List.mem_cons.mp hj with hji | hjL
            · subst hji
              exact fixStep_noFix r₀ (ws ++ (ws₂ ++ ws₃)) hv3 j cfg₀ hfind (Or.inl huuid)
            · exact hdead ws₃ hv3 j hjL
          · rcases hgcase with ⟨hguard, hrc⟩ | ⟨hg1, hg2, hrc⟩
            · -- guard failed: state unchanged
              have hrest' : fixLoop (applyWrites r₀ ws) L = some rest := by
                rw [← hrest, hrc]
              obtain ⟨ws₂, hout1, hv2, hdead⟩ := ih ws rest hv hrest'
              refine ⟨ws₂, by rw [hout, hout1], hv2, ?_⟩
              intro ws₃ hv3 j hj
              rcases List.mem_cons.mp hj with hji | hjL
              · subst hji
                refine fixStep_noFix r₀ (ws ++ (ws₂ ++ ws₃)) hv3 j cfg₀ hfind
                  (Or.inr ⟨u₀, ld₀, pe₀, rg₀, huuid, hld, hassert, hpe, hrg, ?_⟩)
                have hvsuf : ValidLog r₀ (ws₂ ++ ws₃) :=
                  validLog_suffix_of r₀ ws (ws₂ ++ ws₃) hv3
                rcases hguard with hng | hng
                · refine Or.inl ?_
                  rw [textFold_append]
                  have hall : ∀ w ∈ ws₂ ++ ws₃, w.1 = pe₀.eid → w.2 = "0" :=
                    pe_writes_all_zero r₀ hnd (ws₂ ++ ws₃) hvsuf pe₀.eid hkpe
                  rcases textFold_all_eq "0" pe₀.eid (ws₂ ++ ws₃)
                      (textFold ws pe₀.eid pe₀.text) hall with he | he
                  · rw [he]
                    exact hng
                  · rw [he]
                    simp
                · refine Or.inr ?_
                  rw [textFold_append]
                  have hall : ∀ w ∈ ws₂ ++ ws₃, w.1 = rg₀.eid → w.2 = "1" :=
                    rg_writes_all_one r₀ hnd (ws₂ ++ ws₃) hvsuf rg₀.eid hkrg
                  rcases textFold_all_eq "1" rg₀.eid (ws₂ ++ ws₃)
                      (textFold ws rg₀.eid rg₀.text) hall with he | he
                  · rw [he]
                    exact hng
                  · rw [he]
                    simp
              · exact hdead ws₃ hv3 j hjL
            · -- guard passed: two writes appended
              have hvw2 : ValidLog r₀ (ws ++ [(pe₀.eid, "0"), (rg₀.eid, "1")]) := by
                intro w hw
                rcases List.mem_append.mp hw with hmem | hmem
                · exact hv w hmem
                · rcases List.mem_cons.mp hmem with hw1 | hmem2
                  · subst hw1
                    refine ⟨Or.inl ⟨rfl, hkpe⟩, ?_⟩
                    exact origText01_of_guard r₀ hnd ws hv pe₀ hpemem "1" (Or.inr rfl) hg1
                  · rcases List.mem_cons.mp hmem2 with hw2 | hmem3
                    · subst hw2
                      refine ⟨Or.inr ⟨rfl, hkrg⟩, ?_⟩
                      exact origText01_of_guard r₀ hnd ws hv rg₀ hrgmem "0" (Or.inl rfl) hg2
                    · cases hmem3
              have hrest' : fixLoop (applyWrites r₀
                  (ws ++ [(pe₀.eid, "0"), (rg₀.eid, "1")])) L = some rest := by
                rw [← hrest, hrc]
              obtain ⟨ws₂', hout1, hv2, hdead⟩ :=
                ih (ws ++ [(pe₀.eid, "0"), (rg₀.eid, "1")]) rest hvw2 hrest'
              refine ⟨[(pe₀.eid, "0"), (rg₀.eid, "1")] ++ ws₂', ?_, ?_, ?_⟩
              · rw [hout, hout1, List.append_assoc]
              · rw [← List.append_assoc]
                exact hv2
              · intro ws₃ hv3 j hj
                simp only [List.append_assoc] at hv3 ⊢
                rcases List.mem_cons.mp hj with hji | hjL
                · subst hji
                  refine fixStep_noFix r₀
                    (ws ++ ([(pe₀.eid, "0"), (rg₀.eid, "1")] ++ (ws₂' ++ ws₃))) hv3 j cfg₀ hfind
                    (Or.inr ⟨u₀, ld₀, pe₀, rg₀, huuid, hld, hassert, hpe, hrg, Or.inl ?_⟩)
                  rw [textFold_append, textFold_append]
                  have hw2fold : textFold [(pe₀.eid, "0"), (rg₀.eid, "1")] pe₀.eid
                      (textFold ws pe₀.eid pe₀.text) = some "0" := by
                    rw [textFold_cons, if_pos rfl, textFold_cons]
                    have hne : rg₀.eid ≠ pe₀.eid := by
                      intro hh
                      exact role_disjoint r₀ hnd pe₀.eid hkpe (hh ▸ hkrg)
                    rw [if_neg hne]
                    rfl
                  rw [hw2fold]
                  have hvsuf2 : ValidLog r₀ (ws₂' ++ ws₃) :=
                    validLog_append_right r₀ [(pe₀.eid, "0"), (rg₀.eid, "1")] _
                      (validLog_append_right r₀ ws _ hv3)
                  have hall : ∀ w ∈ ws₂' ++ ws₃, w.1 = pe₀.eid → w.2 = "0" :=
                    pe_writes_all_zero r₀ hnd (ws₂' ++ ws₃) hvsuf2 pe₀.eid hkpe
                  rcases textFold_all_eq "0" pe₀.eid (ws₂' ++ ws₃) (some "0") hall with he | he <;>
                    · rw [he]
                      simp
                · have hvd : ValidLog r₀
                      (ws ++ [(pe₀.eid, "0"), (rg₀.eid, "1")] ++ (ws₂' ++ ws₃)) := by
                    simp only [List.append_assoc]
                    exact hv3
                  have hres := hdead ws₃ hvd j hjL
                  simp only [List.append_assoc] at hres
                  exact hres
/-- C2: the document fix is idempotent.  If a pass over all captured
configs completes on a tree with distinct object identities, producing
`root₁` and some count, then a second pass captures the same configs
and reports a fixed count of zero while changing nothing: every config
is re-skipped (no `UUID`) or fails the `PixelEncoding == "1" ∧ Range ==
"0"` guard, because after the first pass a fixed config's
`PixelEncoding` text is `"0"` and can never be rewritten back to
`"1"`. -/
theorem c2_idempotent (root root₁ : Elem) (n : Nat)
    (hnd : (root.iter.map Elem.eid).Nodup)
    (h1 : fixLoop root (configIds root) = some (root₁, n)) :
    configIds root₁ = configIds root ∧
    fixLoop root₁ (configIds root₁) = some (root₁, 0) := by
  have hv0 : ValidLog root [] := fun w hw => absurd hw (by simp)
  have h1' : fixLoop (applyWrites root []) (configIds root) = some (root₁, n) := h1
  obtain ⟨ws₂, hout1, hv2, hdead⟩ := pass1_loop root hnd (configIds root) [] (root₁, n) hv0 h1'
  have hroot1 : root₁ = applyWrites root ws₂ := by simpa using hout1
  have hv2' : ValidLog root ws₂ := by simpa using hv2
  have hcfg : configIds root₁ = configIds root := by
    rw [hroot1]
    exact configIds_stable root ws₂ hv2'
  refine ⟨hcfg, ?_⟩
  rw [hcfg]
  refine fixLoop_noFix root₁ (configIds root) ?_
  intro i hi
  have hd := hdead [] (by simpa using hv2) i hi
  simpa [← hroot1] using hd

/-- Witness for C2: the single-config document `doc1` is fixed once
(count 1, producing `doc1Fixed`), and the second pass over `doc1Fixed`
leaves it unchanged with count 0. -/
theorem c2_witness :
    configIds doc1Fixed = configIds doc1 ∧
    fixLoop doc1Fixed (configIds doc1Fixed) = some (doc1Fixed, 0) :=
  c2_idempotent doc1 doc1Fixed 1 (by decide) rfl
